import Mathlib

/-!
Shallow embedding of the in-memory tabular record store implemented in
`thinking2.c`: the record sequence (singly linked list of rows under a fixed
schema), the transient AVL index over one column, the linear-scan and
index-assisted search functions, and the JSON save/load codec.

Machine `int`s are modelled as `Int` (no arithmetic in the program can
overflow on the inputs the claims quantify over), C strings as `String`,
`RecordNode*` identities as 1-based row positions (`Nat`), and the
`SearchResult` dynamic array as a `List` of `(record, rowNum)` pairs built
in append order.
-/

/-- `Cell` from the source: a tagged value. The C struct stores a `type` tag
next to a union `{int int_val; char* str_val;}`; the inductive fuses the tag
and the active union member. -/
inductive Cell where
  | intCell (v : Int)
  | strCell (s : String)
deriving DecidableEq, Repr

/-- The C `cell.type` tag: 1 for integers, 2 for strings. -/
def Cell.ctype : Cell → Int
  | .intCell _ => 1
  | .strCell _ => 2

/-- Reading `cell.data.int_val`; on a string cell the C read would be a
union type-pun, modelled by the default 0 (never exercised under a
well-formed table). -/
def Cell.int_val : Cell → Int
  | .intCell v => v
  | .strCell _ => 0

/-- Reading `cell.data.str_val`; on an int cell the C read would be a union
type-pun, modelled by the default "" (never exercised under a well-formed
table). -/
def Cell.str_val : Cell → String
  | .intCell _ => ""
  | .strCell s => s

/-- `Column` from the source: a column name and its declared type
(1 = integer, 2 = string). -/
structure Column where
  name : String
  ctype : Int
deriving DecidableEq, Repr

/-- `Table` from the source. `numColumns` and `rowCount` are kept in sync
with `columns`/the record list by every operation of the C code, so they are
modelled as the derived lengths; the linked list of `RecordNode`s is the
list of rows, each row being its array of cells. -/
structure Table where
  columns : List Column
  rows : List (List Cell)
deriving DecidableEq, Repr

/-- `cells[j]` in C (no bounds check there; the default is never exercised
under the hypotheses of the theorems below). -/
def cellAt (row : List Cell) (j : Nat) : Cell := row.getD j (.intCell 0)

/-- `columns[j]` in C (same remark as `cellAt`). -/
def colAt (cols : List Column) (j : Nat) : Column := cols.getD j ⟨"", 0⟩

/-- The type-validation loop shared by `addRecord` and
`updateRecordByRowNum`: `cells[i].type == columns[i].type` for every
`i < numColumns`. -/
def typesMatch (cols : List Column) (cells : List Cell) : Prop :=
  ∀ i < cols.length, (cellAt cells i).ctype = (colAt cols i).ctype

instance (cols : List Column) (cells : List Cell) :
    Decidable (typesMatch cols cells) := by
  unfold typesMatch; infer_instance

/-- `addRecord`: validate every cell's type against the schema, then append
the (deep-copied) row at the tail. Returns the updated table and the C
success flag (NULL return ↦ `false`, in which case the table is untouched). -/
def addRecord (t : Table) (cells : List Cell) : Table × Bool :=
  if typesMatch t.columns cells then ({ t with rows := t.rows ++ [cells] }, true)
  else (t, false)

/-- `deleteRecordByRowNum`: 1-based positional delete; out-of-range row
numbers are rejected before any traversal. -/
def deleteRecordByRowNum (t : Table) (rowNum : Int) : Table × Bool :=
  if rowNum < 1 ∨ rowNum > (t.rows.length : Int) then (t, false)
  else ({ t with rows := t.rows.eraseIdx (rowNum - 1).toNat }, true)

/-- `updateRecordByRowNum`: bounds check, then the type-validation loop,
and only then the in-place replacement of the row's cells. -/
def updateRecordByRowNum (t : Table) (rowNum : Int) (newCells : List Cell) :
    Table × Bool :=
  if rowNum < 1 ∨ rowNum > (t.rows.length : Int) then (t, false)
  else if typesMatch t.columns newCells then
    ({ t with rows := t.rows.set (rowNum - 1).toNat newCells }, true)
  else (t, false)

/-- `getRecordByRowNum`: 1-based positional lookup, NULL on out-of-range. -/
def getRecordByRowNum (t : Table) (rowNum : Int) : Option (List Cell) :=
  if rowNum < 1 ∨ rowNum > (t.rows.length : Int) then none
  else t.rows.get? (rowNum - 1).toNat

/-- Well-formedness maintained by the C code for every table it builds:
declared column types are 1 or 2, and every row has one cell per column
whose tag equals the column's declared type. -/
def WFTable (t : Table) : Prop :=
  (∀ c ∈ t.columns, c.ctype = 1 ∨ c.ctype = 2) ∧
  ∀ row ∈ t.rows, row.length = t.columns.length ∧
    ∀ j < t.columns.length, (cellAt row j).ctype = (colAt t.columns j).ctype

instance (t : Table) : Decidable (WFTable t) := by
  unfold WFTable; infer_instance

/-! ## AVL index trees -/

/-- `AVLNode` from the source, specialised by key type (`keyType` selects
`intKey`/`strKey` in C; the embedding is parametric instead). `record` is
the non-owning back reference to a `RecordNode`, modelled as the row's
1-based position at build time; `height` is the stored height field. -/
inductive AVLTree (α : Type) where
  | nil : AVLTree α
  | node (key : α) (record : Nat) (left right : AVLTree α) (height : Nat) :
      AVLTree α
deriving DecidableEq, Repr

namespace AVLTree

/-- `getHeight` from the source: the stored height, 0 for NULL. -/
def getHeight : AVLTree α → Nat
  | .nil => 0
  | .node _ _ _ _ h => h

/-- `rotateRight`: the left child becomes the root; heights are recomputed,
y (the demoted node) before x (the new root).  A NULL left child would be a
NULL dereference in C; the catch-all is never exercised. -/
def rotateRight : AVLTree α → AVLTree α
  | .node yk yr (.node xk xr t1 t2 _) t3 _ =>
      let newY : AVLTree α :=
        .node yk yr t2 t3 (1 + max (getHeight t2) (getHeight t3))
      .node xk xr t1 newY (1 + max (getHeight t1) (getHeight newY))
  | t => t

/-- `rotateLeft`: mirror image of `rotateRight`. -/
def rotateLeft : AVLTree α → AVLTree α
  | .node xk xr t1 (.node yk yr t2 t3 _) _ =>
      let newX : AVLTree α :=
        .node xk xr t1 t2 (1 + max (getHeight t1) (getHeight t2))
      .node yk yr newX t3 (1 + max (getHeight newX) (getHeight t3))
  | t => t

/-- The unwind step of `insertAVLInt`/`insertAVLStr` after the recursive
insertion returned: `updateHeight(node)`, `balance = getBalance(node)`, and
the four rotation cases keyed on the inserted `key` versus the child's key.
`k`/`rcd` are the node's own key and record, `l`/`r` its children after the
recursive call.  The C tests the four `balance`/`key` conjunctions in
sequence; since `balance > 1` and `balance < -1` are exclusive, grouping by
the sign of `balance` is the same decision tree, and the NULL-child arms are
unreachable when the corresponding imbalance holds. -/
def insertRebalance [LinearOrder α] (key k : α) (rcd : Nat)
    (l r : AVLTree α) : AVLTree α :=
  if 1 < (getHeight l : Int) - (getHeight r : Int) then
    match l with
    | .node lk _ _ _ _ =>
        if key < lk then
          rotateRight (.node k rcd l r (1 + max (getHeight l) (getHeight r)))
        else if lk < key then
          rotateRight (.node k rcd (rotateLeft l) r
            (1 + max (getHeight l) (getHeight r)))
        else .node k rcd l r (1 + max (getHeight l) (getHeight r))
    | .nil => .node k rcd l r (1 + max (getHeight l) (getHeight r))
  else if (getHeight l : Int) - (getHeight r : Int) < -1 then
    match r with
    | .node rk _ _ _ _ =>
        if rk < key then
          rotateLeft (.node k rcd l r (1 + max (getHeight l) (getHeight r)))
        else if key < rk then
          rotateLeft (.node k rcd l (rotateRight r)
            (1 + max (getHeight l) (getHeight r)))
        else .node k rcd l r (1 + max (getHeight l) (getHeight r))
    | .nil => .node k rcd l r (1 + max (getHeight l) (getHeight r))
  else .node k rcd l r (1 + max (getHeight l) (getHeight r))

/-- `insertAVLInt`/`insertAVLStr`, parametric in the key order (numeric
comparison for `int` keys, `strcmp` — lexicographic — for string keys).
BST descent; an equal key returns the node unchanged (duplicate keys are
rejected); on unwind the height is recomputed and the balance restored by
`insertRebalance`. -/
def insertAVL [LinearOrder α] (node : AVLTree α) (key : α) (record : Nat) :
    AVLTree α :=
  match node with
  | .nil => .node key record .nil .nil 1
  | .node k rcd l r h =>
    if key < k then insertRebalance key k rcd (insertAVL l key record) r
    else if k < key then insertRebalance key k rcd l (insertAVL r key record)
    else .node k rcd l r h

end AVLTree

/-- `insertAVLInt` from the source (numeric key comparison). -/
def insertAVLInt (node : AVLTree Int) (key : Int) (record : Nat) :
    AVLTree Int := AVLTree.insertAVL node key record

/-- `insertAVLStr` from the source (`strcmp` comparison, i.e. lexicographic
order on strings). -/
def insertAVLStr (node : AVLTree String) (key : String) (record : Nat) :
    AVLTree String := AVLTree.insertAVL node key record

/-- Building a tree from a sequence of `(key, record)` insertions starting
from the empty tree, as `buildAVLIndex` does for an integer column. -/
def buildAVLInt (ops : List (Int × Nat)) : AVLTree Int :=
  ops.foldl (fun t p => insertAVLInt t p.1 p.2) .nil

/-- Building a tree from a sequence of `(key, record)` insertions starting
from the empty tree, as `buildAVLIndex` does for a string column. -/
def buildAVLStr (ops : List (String × Nat)) : AVLTree String :=
  ops.foldl (fun t p => insertAVLStr t p.1 p.2) .nil

/-! ## Search engine -/

open AVLTree in
/-- The integer-column arm of `buildAVLIndex`: walk the record list head to
tail, inserting each row's value at the chosen column with the row itself as
the back reference (modelled by its 1-based position `pos`). -/
def buildIndexIntAux (j : Nat) : List (List Cell) → Nat → AVLTree Int →
    AVLTree Int
  | [], _, root => root
  | row :: rest, pos, root =>
      buildIndexIntAux j rest (pos + 1)
        (insertAVLInt root (cellAt row j).int_val pos)

/-- `buildAVLIndex` on a table whose chosen column has type 1. -/
def buildAVLIndexInt (t : Table) (j : Nat) : AVLTree Int :=
  buildIndexIntAux j t.rows 1 .nil

/-- Entries appended to a `SearchResult`: `(record, rowNum)` pairs in append
order; `addToResult` (the AVL paths) always passes `rowNum = 0`. -/
abbrev SearchEntry := Nat × Nat

/-- The scan loop of `linearFindGE`: walk the rows with a 1-based `rowNum`
counter, keeping rows whose cell at the column is an int `≥ value`. -/
def scanGE (j : Nat) (value : Int) : List (List Cell) → Nat → List SearchEntry
  | [], _ => []
  | row :: rest, rowNum =>
      if (cellAt row j).ctype = 1 ∧ value ≤ (cellAt row j).int_val then
        (rowNum, rowNum) :: scanGE j value rest (rowNum + 1)
      else scanGE j value rest (rowNum + 1)

/-- `linearFindGE`. -/
def linearFindGE (t : Table) (j : Nat) (value : Int) : List SearchEntry :=
  scanGE j value t.rows 1

/-- The scan loop of `linearFindLE`. -/
def scanLE (j : Nat) (value : Int) : List (List Cell) → Nat → List SearchEntry
  | [], _ => []
  | row :: rest, rowNum =>
      if (cellAt row j).ctype = 1 ∧ (cellAt row j).int_val ≤ value then
        (rowNum, rowNum) :: scanLE j value rest (rowNum + 1)
      else scanLE j value rest (rowNum + 1)

/-- `linearFindLE`. -/
def linearFindLE (t : Table) (j : Nat) (value : Int) : List SearchEntry :=
  scanLE j value t.rows 1

/-- The scan loop of `linearFindEqual` (integer equality, no column-type
guard in the function itself — each cell's own tag is tested). -/
def scanEqual (j : Nat) (value : Int) : List (List Cell) → Nat →
    List SearchEntry
  | [], _ => []
  | row :: rest, rowNum =>
      if (cellAt row j).ctype = 1 ∧ (cellAt row j).int_val = value then
        (rowNum, rowNum) :: scanEqual j value rest (rowNum + 1)
      else scanEqual j value rest (rowNum + 1)

/-- `linearFindEqual`. -/
def linearFindEqual (t : Table) (j : Nat) (value : Int) : List SearchEntry :=
  scanEqual j value t.rows 1

/-- The traversal loop of `linearFindMax`: `best`/`bestNum` hold the current
maximum and its row number, `rowNum` the number of the next row; a strictly
greater value replaces the maximum, so ties keep the earliest row. -/
def linearFindMaxAux (j : Nat) : List (List Cell) → List Cell → Nat → Nat →
    List Cell × Nat
  | [], best, bestNum, _ => (best, bestNum)
  | row :: rest, best, bestNum, rowNum =>
      if (cellAt best j).int_val < (cellAt row j).int_val then
        linearFindMaxAux j rest row rowNum (rowNum + 1)
      else linearFindMaxAux j rest best bestNum (rowNum + 1)

/-- `linearFindMax`: NULL (here `none`) for an empty table or a column whose
declared type is not 1; otherwise the record with the maximal value at the
column, together with its 1-based row number. -/
def linearFindMax (t : Table) (j : Nat) : Option (List Cell × Nat) :=
  match t.rows with
  | [] => none
  | r0 :: rest =>
      if (colAt t.columns j).ctype = 1 then some (linearFindMaxAux j rest r0 1 2)
      else none

/-- The traversal loop of `linearFindMin` (strictly smaller replaces). -/
def linearFindMinAux (j : Nat) : List (List Cell) → List Cell → Nat → Nat →
    List Cell × Nat
  | [], best, bestNum, _ => (best, bestNum)
  | row :: rest, best, bestNum, rowNum =>
      if (cellAt row j).int_val < (cellAt best j).int_val then
        linearFindMinAux j rest row rowNum (rowNum + 1)
      else linearFindMinAux j rest best bestNum (rowNum + 1)

/-- `linearFindMin`. -/
def linearFindMin (t : Table) (j : Nat) : Option (List Cell × Nat) :=
  match t.rows with
  | [] => none
  | r0 :: rest =>
      if (colAt t.columns j).ctype = 1 then some (linearFindMinAux j rest r0 1 2)
      else none

/-- The `SortItem` collection pass shared by `linearFindTopN` and
`linearFindBottomN`: `(value, rowNum)` per row in sequence order (the
`record` field is recoverable from `rowNum`). -/
def collectItems (j : Nat) : List (List Cell) → Nat → List (Int × Nat)
  | [], _ => []
  | row :: rest, rowNum =>
      ((cellAt row j).int_val, rowNum) :: collectItems j rest (rowNum + 1)

/-- `linearFindTopN`: guard (empty table, non-integer column, or `n ≤ 0`
returns an empty result set), then sort the collected items by value
descending — `qsort`'s tie order is unspecified, modelled by a fixed
`mergeSort` — and keep the first `n`. -/
def linearFindTopN (t : Table) (j : Nat) (n : Int) : List SearchEntry :=
  if t.rows = [] ∨ (colAt t.columns j).ctype ≠ 1 ∨ n ≤ 0 then []
  else
    (((collectItems j t.rows 1).mergeSort fun a b => b.1 ≤ a.1).take n.toNat).map
      fun it => (it.2, it.2)

/-- `linearFindBottomN`: same with an ascending sort. -/
def linearFindBottomN (t : Table) (j : Nat) (n : Int) : List SearchEntry :=
  if t.rows = [] ∨ (colAt t.columns j).ctype ≠ 1 ∨ n ≤ 0 then []
  else
    (((collectItems j t.rows 1).mergeSort fun a b => a.1 ≤ b.1).take n.toNat).map
      fun it => (it.2, it.2)

open AVLTree in
/-- `avlFindGEHelper`: pruning in-order traversal; every match is appended
through `addToResult`, which records row number 0 ("unknown"). -/
def avlFindGEHelper : AVLTree Int → Int → List SearchEntry
  | .nil, _ => []
  | .node k rcd l r _, value =>
      if value ≤ k then
        avlFindGEHelper l value ++ (rcd, 0) :: avlFindGEHelper r value
      else avlFindGEHelper r value

/-- `avlFindGE`. -/
def avlFindGE (root : AVLTree Int) (value : Int) : List SearchEntry :=
  avlFindGEHelper root value

open AVLTree in
/-- `avlFindLEHelper`: mirror pruning (an over-large node key prunes its
right subtree). -/
def avlFindLEHelper : AVLTree Int → Int → List SearchEntry
  | .nil, _ => []
  | .node k rcd l r _, value =>
      if k ≤ value then
        avlFindLEHelper l value ++ (rcd, 0) :: avlFindLEHelper r value
      else avlFindLEHelper l value

/-- `avlFindLE`. -/
def avlFindLE (root : AVLTree Int) (value : Int) : List SearchEntry :=
  avlFindLEHelper root value

open AVLTree in
/-- `avlCollectTopN`: reverse-in-order traversal threading the result set
and the shared `collected` counter; stops once `n` records are collected;
appends through `addToResult` (row number 0). -/
def avlCollectTopN (n : Nat) : AVLTree Int → List SearchEntry × Nat →
    List SearchEntry × Nat
  | .nil, s => s
  | .node _ rcd l r _, (acc, c) =>
      if n ≤ c then (acc, c)
      else
        let s1 := avlCollectTopN n r (acc, c)
        let s2 := if s1.2 < n then (s1.1 ++ [(rcd, 0)], s1.2 + 1) else s1
        avlCollectTopN n l s2

/-- `avlFindTopN`. -/
def avlFindTopN (root : AVLTree Int) (n : Nat) : List SearchEntry :=
  (avlCollectTopN n root ([], 0)).1

open AVLTree in
/-- `avlCollectBottomN`: in-order traversal, otherwise as `avlCollectTopN`. -/
def avlCollectBottomN (n : Nat) : AVLTree Int → List SearchEntry × Nat →
    List SearchEntry × Nat
  | .nil, s => s
  | .node _ rcd l r _, (acc, c) =>
      if n ≤ c then (acc, c)
      else
        let s1 := avlCollectBottomN n l (acc, c)
        let s2 := if s1.2 < n then (s1.1 ++ [(rcd, 0)], s1.2 + 1) else s1
        avlCollectBottomN n r s2

/-- `avlFindBottomN`. -/
def avlFindBottomN (root : AVLTree Int) (n : Nat) : List SearchEntry :=
  (avlCollectBottomN n root ([], 0)).1

/-! ## JSON save/load

The on-disk text format is handled by cJSON; per the spec it is a codec the
core hands structured data to and from, so the embedding works on parsed
JSON trees.  `cJSON_GetObjectItemCaseSensitive` on a missing key (or on
NULL) returns NULL, `cJSON_GetArraySize`/`cJSON_GetArrayItem` tolerate NULL,
but dereferencing a NULL item (`->valueint`, `->valuestring`) or calling
`_strdup(NULL)` is a crash, which `LoadResult.crash` records. -/

inductive Json where
  | num (n : Int)
  | str (s : String)
  | arr (items : List Json)
  | obj (fields : List (String × Json))

/-- Outcome of `loadTableFromJson`: a clean NULL return, a NULL-pointer
dereference (undefined behaviour), or a loaded table. -/
inductive LoadResult where
  | failed
  | crash
  | ok (t : Table)
deriving DecidableEq, Repr

/-- `cJSON_GetObjectItemCaseSensitive` on a (non-NULL) node: first field
with the given name, NULL if absent or if the node is not an object. -/
def jGetObj (j : Json) (key : String) : Option Json :=
  match j with
  | .obj fields => (fields.find? fun f => f.1 = key).map Prod.snd
  | _ => none

/-- `cJSON_GetObjectItemCaseSensitive` where the node itself may be NULL. -/
def jGetObjOpt (j : Option Json) (key : String) : Option Json :=
  match j with
  | some jj => jGetObj jj key
  | none => none

/-- `cJSON_GetArraySize`: 0 on NULL or a non-array. -/
def jArrSize (j : Option Json) : Nat :=
  match j with
  | some (.arr items) => items.length
  | _ => 0

/-- `cJSON_GetArrayItem`: NULL on NULL, a non-array, or out of range. -/
def jArrItem (j : Option Json) (i : Nat) : Option Json :=
  match j with
  | some (.arr items) => items.get? i
  | _ => none

/-- `item->valueint`: `none` models the NULL dereference; cJSON leaves the
`valueint` field 0 for non-number nodes. -/
def jValueInt : Option Json → Option Int
  | none => none
  | some (.num n) => some n
  | some _ => some 0

/-- `_strdup(item->valuestring)`: NULL item or NULL `valuestring` (any
non-string node) crashes; otherwise the string. -/
def jValueStrDup : Option Json → Option String
  | some (.str s) => some s
  | _ => none

/-- `saveTableToJson` on one record: one field per column in schema order,
the column name mapped to the cell value (number for type 1, string
otherwise).  The C loop walks `columns[i]`/`cells[i]` for `i < numColumns`;
rows of a well-formed table have exactly that many cells, giving this paired
recursion. -/
def recordFields : List Column → List Cell → List (String × Json)
  | c :: cs, cell :: cells =>
      (c.name, if c.ctype = 1 then Json.num cell.int_val
               else Json.str cell.str_val) :: recordFields cs cells
  | _, _ => []

/-- One entry of the saved `columns` array: a `{name, type}` object. -/
def savedColumnJson (c : Column) : Json :=
  .obj [("name", .str c.name), ("type", .num c.ctype)]

/-- One entry of the saved `records` array. -/
def savedRecordJson (cols : List Column) (row : List Cell) : Json :=
  .obj (recordFields cols row)

/-- `saveTableToJson`: the root object with `numColumns`, the `columns`
array of `{name, type}` objects, and the `records` array in head-to-tail
(positional) order. -/
def saveTableToJson (t : Table) : Json :=
  .obj
    [("numColumns", .num t.columns.length),
     ("columns", .arr (t.columns.map savedColumnJson)),
     ("records", .arr (t.rows.map (savedRecordJson t.columns)))]

/-- The column-reading loop of `loadTableFromJson`: for each `i < n`,
`cJSON_GetArrayItem(columnsArray, i)` then the `name`/`type` lookups, whose
NULL dereferences propagate as `none`. -/
def readColumn (arrOpt : Option Json) (i : Nat) : Option Column :=
  match jValueStrDup (jGetObjOpt (jArrItem arrOpt i) "name") with
  | none => none
  | some nm =>
      match jValueInt (jGetObjOpt (jArrItem arrOpt i) "type") with
      | none => none
      | some ty => some ⟨nm, ty⟩

/-- Reads columns `i, i+1, …` while `count` remains. -/
def readColumns (arrOpt : Option Json) (i : Nat) : Nat → Option (List Column)
  | 0 => some []
  | count + 1 =>
      match readColumn arrOpt i with
      | none => none
      | some c => (readColumns arrOpt (i + 1) count).map (c :: ·)

/-- The per-column body of the record-reading loop: look the column's name
up in the record object and build `cells[j]` with the column's declared
type; a type-1 column reads `valueint` (NULL item crashes), any other type
reads and duplicates `valuestring` (NULL item or non-string crashes). -/
def readCell (record : Json) (c : Column) : Option Cell :=
  if c.ctype = 1 then (jValueInt (jGetObj record c.name)).map Cell.intCell
  else (jValueStrDup (jGetObj record c.name)).map Cell.strCell

/-- The inner `j` loop over the schema for one record. -/
def readCells (record : Json) : List Column → Option (List Cell)
  | [] => some []
  | c :: cs =>
      match readCell record c with
      | none => none
      | some cell => (readCells record cs).map (cell :: ·)

/-- The record loop of `loadTableFromJson`: `count` iterations from index
`i`, each building a cell array and handing it to `addRecord` (whose return
value the C code ignores). -/
def loadRecordsLoop (recordsArray : Option Json) : Nat → Nat → Table →
    Option Table
  | 0, _, table => some table
  | count + 1, i, table =>
      match jArrItem recordsArray i with
      | none => none
      | some record =>
          match readCells record table.columns with
          | none => none
          | some cells =>
              loadRecordsLoop recordsArray count (i + 1) (addRecord table cells).1

/-- `loadTableFromJson`, from the result of `cJSON_Parse` (`none` = parse
failure, the one case the C code checks and turns into a clean NULL
return).  `numColumns` is dereferenced unchecked; the columns are read into
a fresh table (`createTable`); then every entry of `records` — missing
`records` gives `cJSON_GetArraySize(NULL) = 0` and an empty loop. -/
def loadRecordsStage (root : Json) (cols : List Column) : LoadResult :=
  match loadRecordsLoop (jGetObj root "records")
      (jArrSize (jGetObj root "records")) 0 ⟨cols, []⟩ with
  | none => .crash
  | some table => .ok table

/-- The column-reading stage of `loadTableFromJson` (everything after
`numColumns` has been read): the column loop, `createTable`, then the
record loop. -/
def loadColumnsStage (root : Json) (numColumns : Int) : LoadResult :=
  match readColumns (jGetObj root "columns") 0 numColumns.toNat with
  | none => .crash
  | some cols => loadRecordsStage root cols

def loadTableFromJson (parsed : Option Json) : LoadResult :=
  match parsed with
  | none => .failed
  | some root =>
      match jValueInt (jGetObj root "numColumns") with
      | none => .crash
      | some numColumns => loadColumnsStage root numColumns

/-! ## Invariants and the list-level model of the index -/

namespace AVLTree

/-- Real (recomputed) height of a tree: 0 for an empty tree, otherwise one
more than the taller child. -/
def realHeight : AVLTree α → Nat
  | .nil => 0
  | .node _ _ l r _ => 1 + max (realHeight l) (realHeight r)

/-- Every stored `height` field equals one plus the maximum of the
children's stored heights. -/
def HeightOK : AVLTree α → Prop
  | .nil => True
  | .node _ _ l r h =>
      h = 1 + max (getHeight l) (getHeight r) ∧ HeightOK l ∧ HeightOK r

/-- Stored child heights differ by at most one at every node. -/
def BalancedOK : AVLTree α → Prop
  | .nil => True
  | .node _ _ l r _ =>
      getHeight l ≤ getHeight r + 1 ∧ getHeight r ≤ getHeight l + 1 ∧
      BalancedOK l ∧ BalancedOK r

/-- The whole AVL height/balance invariant on stored fields. -/
def AVLInv (t : AVLTree α) : Prop := HeightOK t ∧ BalancedOK t

/-- The invariant exactly as the specification states it, in terms of real
subtree heights (`height(nil) = 0`): at every node the left and right
subtree heights differ by at most 1 and the node's stored height field is
`1 + max(height(left), height(right))`. -/
def SpecAVL : AVLTree α → Prop
  | .nil => True
  | .node _ _ l r h =>
      (realHeight l ≤ realHeight r + 1 ∧ realHeight r ≤ realHeight l + 1) ∧
      h = 1 + max (realHeight l) (realHeight r) ∧ SpecAVL l ∧ SpecAVL r

/-- After an insertion of `key` grew a (nonempty) subtree, the subtree leans
toward the side `key` went: its root is a node, and the child on `key`'s
side of the root key is exactly one level taller than the other. -/
def TiltedToward [LinearOrder α] (key : α) : AVLTree α → Prop
  | .nil => False
  | .node k _ a b _ =>
      (key < k ∧ getHeight a = getHeight b + 1) ∨
      (k < key ∧ getHeight b = getHeight a + 1)

/-- In-order traversal of `(key, record)` pairs. -/
def inorderPairs : AVLTree α → List (α × Nat)
  | .nil => []
  | .node k rcd l r _ => inorderPairs l ++ (k, rcd) :: inorderPairs r

/-- In-order key sequence. -/
def inorderKeys (t : AVLTree α) : List α := (inorderPairs t).map Prod.fst

/-- Strict binary-search-tree property: at every node all left-subtree keys
are less than the node key and all right-subtree keys are greater. -/
def BSTOrdered [LinearOrder α] : AVLTree α → Prop
  | .nil => True
  | .node k _ l r _ =>
      (∀ x ∈ inorderKeys l, x < k) ∧ (∀ x ∈ inorderKeys r, k < x) ∧
      BSTOrdered l ∧ BSTOrdered r

end AVLTree

/-- Pairs listed in strictly increasing key order. -/
def SortedPairs {α : Type} [LinearOrder α] (xs : List (α × Nat)) : Prop :=
  List.Pairwise (fun a b => a.1 < b.1) xs

/-- The list-level counterpart of one AVL insertion: place `(key, rcd)` at
its position in a key-sorted pair list, dropping it when the key is already
present.  `insertAVL` realises exactly this on in-order traversals. -/
def linsert {α : Type} [LinearOrder α] (key : α) (rcd : Nat) :
    List (α × Nat) → List (α × Nat)
  | [] => [(key, rcd)]
  | (k, r) :: rest =>
      if key < k then (key, rcd) :: (k, r) :: rest
      else if k < key then (k, r) :: linsert key rcd rest
      else (k, r) :: rest

/-- The list-level model of a whole insertion sequence. -/
def slist {α : Type} [LinearOrder α] (ops : List (α × Nat)) : List (α × Nat) :=
  ops.foldl (fun acc p => linsert p.1 p.2 acc) []

/-! ## Record sequence: positional delete/get and schema validation -/

theorem getRecordByRowNum_eq (t : Table) (p : Int) (h1 : 1 ≤ p)
    (h2 : p ≤ (t.rows.length : Int)) :
    getRecordByRowNum t p = t.rows.get? (p - 1).toNat := by
  unfold getRecordByRowNum
  rw [if_neg]
  omega

/-- C7: after a successful `deleteRecordByRowNum(p)`, `getRecordByRowNum(p)`
returns the row previously at `p + 1` (hence NULL when `p` was the last
position), and an out-of-range `p` is rejected with the table unchanged. -/
theorem delete_then_get_shifts (t : Table) (p : Int) :
    (1 ≤ p → p ≤ (t.rows.length : Int) →
      (deleteRecordByRowNum t p).2 = true ∧
      getRecordByRowNum (deleteRecordByRowNum t p).1 p =
        getRecordByRowNum t (p + 1)) ∧
    ((p < 1 ∨ (t.rows.length : Int) < p) →
      deleteRecordByRowNum t p = (t, false)) := by
  constructor
  · intro h1 h2
    have hcond : ¬(p < 1 ∨ p > (t.rows.length : Int)) := by omega
    have hdel : deleteRecordByRowNum t p =
        ({ t with rows := t.rows.eraseIdx (p - 1).toNat }, true) := by
      unfold deleteRecordByRowNum; rw [if_neg hcond]
    rw [hdel]
    refine ⟨rfl, ?_⟩
    have hklt : (p - 1).toNat < t.rows.length := by omega
    have hlen : ((({ t with rows := t.rows.eraseIdx (p - 1).toNat} :
        Table).rows.length : Int)) = (t.rows.length : Int) - 1 := by
      show ((t.rows.eraseIdx (p - 1).toNat).length : Int) = _
      rw [List.length_eraseIdx, if_pos hklt]; omega
    by_cases hlast : p = (t.rows.length : Int)
    · unfold getRecordByRowNum
      rw [if_pos (by rw [hlen]; omega), if_pos (by omega)]
    · have hplt : p < (t.rows.length : Int) := lt_of_le_of_ne h2 hlast
      unfold getRecordByRowNum
      rw [if_neg (by rw [hlen]; omega), if_neg (by omega)]
      show (t.rows.eraseIdx (p - 1).toNat).get? (p - 1).toNat =
        t.rows.get? (p + 1 - 1).toNat
      rw [List.get?_eq_getElem?, List.get?_eq_getElem?, List.getElem?_eraseIdx,
        if_neg (lt_irrefl ((p - 1).toNat))]
      congr 1
      omega
  · intro h
    unfold deleteRecordByRowNum
    rw [if_pos (by omega : p < 1 ∨ p > (t.rows.length : Int))]

/-- C8: a row whose cell kinds do not all match the schema is rejected by
both `addRecord` and `updateRecordByRowNum` before any state change — the
returned table is exactly the input table, with the failure flag. -/
theorem schema_mismatch_no_mutation (t : Table) (cells : List Cell)
    (hmis : ¬ typesMatch t.columns cells) :
    addRecord t cells = (t, false) ∧
    ∀ p : Int, updateRecordByRowNum t p cells = (t, false) := by
  refine ⟨by simp [addRecord, hmis], fun p => ?_⟩
  unfold updateRecordByRowNum
  by_cases hb : p < 1 ∨ p > (t.rows.length : Int)
  · rw [if_pos hb]
  · rw [if_neg hb, if_neg hmis]

theorem schema_mismatch_no_mutation_witness :
    addRecord ⟨[⟨"id", 1⟩], []⟩ [Cell.strCell "x"] = (⟨[⟨"id", 1⟩], []⟩, false) ∧
    ∀ p : Int, updateRecordByRowNum ⟨[⟨"id", 1⟩], []⟩ p [Cell.strCell "x"] =
      (⟨[⟨"id", 1⟩], []⟩, false) :=
  schema_mismatch_no_mutation ⟨[⟨"id", 1⟩], []⟩ [Cell.strCell "x"] (by decide)

/-! ## Result-set row numbers on the index-assisted paths -/

theorem avlFindGEHelper_rowNum_zero (v : Int) :
    ∀ tr : AVLTree Int, ∀ e ∈ avlFindGEHelper tr v, e.2 = 0 := by
  intro tr
  induction tr with
  | nil => intro e he; simp [avlFindGEHelper] at he
  | node k rcd l r h ihl ihr =>
      intro e he
      by_cases hk : v ≤ k
      · simp only [avlFindGEHelper, if_pos hk, List.mem_append,
          List.mem_cons] at he
        rcases he with h1 | h2 | h3
        · exact ihl e h1
        · rw [h2]
        · exact ihr e h3
      · simp only [avlFindGEHelper, if_neg hk] at he
        exact ihr e he

theorem avlFindLEHelper_rowNum_zero (v : Int) :
    ∀ tr : AVLTree Int, ∀ e ∈ avlFindLEHelper tr v, e.2 = 0 := by
  intro tr
  induction tr with
  | nil => intro e he; simp [avlFindLEHelper] at he
  | node k rcd l r h ihl ihr =>
      intro e he
      by_cases hk : k ≤ v
      · simp only [avlFindLEHelper, if_pos hk, List.mem_append,
          List.mem_cons] at he
        rcases he with h1 | h2 | h3
        · exact ihl e h1
        · rw [h2]
        · exact ihr e h3
      · simp only [avlFindLEHelper, if_neg hk] at he
        exact ihl e he

theorem avlCollectTopN_rowNum_zero (n : Nat) :
    ∀ (tr : AVLTree Int) (s : List SearchEntry × Nat),
      (∀ e ∈ s.1, e.2 = 0) → ∀ e ∈ (avlCollectTopN n tr s).1, e.2 = 0 := by
  intro tr
  induction tr with
  | nil => intro s hs; simpa [avlCollectTopN] using hs
  | node k rcd l r h ihl ihr =>
      rintro ⟨acc, c⟩ hs e he
      by_cases hc : n ≤ c
      · simp only [avlCollectTopN, if_pos hc] at he
        exact hs e he
      · simp only [avlCollectTopN, if_neg hc] at he
        refine ihl _ ?_ e he
        intro e' he'
        by_cases hlt : (avlCollectTopN n r (acc, c)).2 < n
        · simp only [if_pos hlt, List.mem_append, List.mem_singleton] at he'
          rcases he' with h1 | h2
          · exact ihr (acc, c) hs e' h1
          · rw [h2]
        · simp only [if_neg hlt] at he'
          exact ihr (acc, c) hs e' he'

theorem avlCollectBottomN_rowNum_zero (n : Nat) :
    ∀ (tr : AVLTree Int) (s : List SearchEntry × Nat),
      (∀ e ∈ s.1, e.2 = 0) → ∀ e ∈ (avlCollectBottomN n tr s).1, e.2 = 0 := by
  intro tr
  induction tr with
  | nil => intro s hs; simpa [avlCollectBottomN] using hs
  | node k rcd l r h ihl ihr =>
      rintro ⟨acc, c⟩ hs e he
      by_cases hc : n ≤ c
      · simp only [avlCollectBottomN, if_pos hc] at he
        exact hs e he
      · simp only [avlCollectBottomN, if_neg hc] at he
        refine ihr _ ?_ e he
        intro e' he'
        by_cases hlt : (avlCollectBottomN n l (acc, c)).2 < n
        · simp only [if_pos hlt, List.mem_append, List.mem_singleton] at he'
          rcases he' with h1 | h2
          · exact ihl (acc, c) hs e' h1
          · rw [h2]
        · simp only [if_neg hlt] at he'
          exact ihl (acc, c) hs e' he'

/-- C10: every entry the index-assisted searches put into the result set
carries row number 0 (the `addToResult` compatibility path), not the row's
1-based position. -/
theorem avl_result_rowNums_zero (tr : AVLTree Int) (v : Int) (n : Nat) :
    (∀ e ∈ avlFindGE tr v, e.2 = 0) ∧ (∀ e ∈ avlFindLE tr v, e.2 = 0) ∧
    (∀ e ∈ avlFindTopN tr n, e.2 = 0) ∧ (∀ e ∈ avlFindBottomN tr n, e.2 = 0) :=
  ⟨avlFindGEHelper_rowNum_zero v tr, avlFindLEHelper_rowNum_zero v tr,
   avlCollectTopN_rowNum_zero n tr ([], 0) (by intro e he; simp at he),
   avlCollectBottomN_rowNum_zero n tr ([], 0) (by intro e he; simp at he)⟩

theorem avl_result_rowNums_zero_witness :
    ((5 : Nat), (0 : Nat)) ∈ avlFindGE (buildAVLInt [(1, 5)]) 0 ∧
    (((5 : Nat), (0 : Nat)) : SearchEntry).2 = 0 :=
  ⟨by decide, (avl_result_rowNums_zero (buildAVLInt [(1, 5)]) 0 1).1
    ((5 : Nat), (0 : Nat)) (by decide)⟩

theorem delete_then_get_shifts_witness :
    (1 ≤ (1 : Int) → (1 : Int) ≤ (((⟨[⟨"id", 1⟩],
        [[Cell.intCell 1], [Cell.intCell 2]]⟩ : Table)).rows.length : Int) →
      (deleteRecordByRowNum ⟨[⟨"id", 1⟩], [[Cell.intCell 1], [Cell.intCell 2]]⟩ 1).2 = true ∧
      getRecordByRowNum
        (deleteRecordByRowNum ⟨[⟨"id", 1⟩], [[Cell.intCell 1], [Cell.intCell 2]]⟩ 1).1 1 =
      getRecordByRowNum ⟨[⟨"id", 1⟩], [[Cell.intCell 1], [Cell.intCell 2]]⟩ (1 + 1)) ∧
    (((1 : Int) < 1 ∨ (((⟨[⟨"id", 1⟩],
        [[Cell.intCell 1], [Cell.intCell 2]]⟩ : Table)).rows.length : Int) < 1) →
      deleteRecordByRowNum ⟨[⟨"id", 1⟩], [[Cell.intCell 1], [Cell.intCell 2]]⟩ 1 =
        (⟨[⟨"id", 1⟩], [[Cell.intCell 1], [Cell.intCell 2]]⟩, false)) :=
  delete_then_get_shifts ⟨[⟨"id", 1⟩], [[Cell.intCell 1], [Cell.intCell 2]]⟩ 1

/-! ## Kind-mismatched searches -/

theorem scanEqual_nil_of_no_int (j : Nat) (v : Int) :
    ∀ (rows : List (List Cell)) (p : Nat),
      (∀ row ∈ rows, (cellAt row j).ctype ≠ 1) → scanEqual j v rows p = [] := by
  intro rows
  induction rows with
  | nil => intro p _; rfl
  | cons row rest ih =>
      intro p hno
      unfold scanEqual
      rw [if_neg, ih (p + 1) fun r hr => hno r (List.mem_cons_of_mem _ hr)]
      intro hcontra
      exact hno row (List.mem_cons_self _ _) hcontra.1

theorem scanGE_nil_of_no_int (j : Nat) (v : Int) :
    ∀ (rows : List (List Cell)) (p : Nat),
      (∀ row ∈ rows, (cellAt row j).ctype ≠ 1) → scanGE j v rows p = [] := by
  intro rows
  induction rows with
  | nil => intro p _; rfl
  | cons row rest ih =>
      intro p hno
      unfold scanGE
      rw [if_neg, ih (p + 1) fun r hr => hno r (List.mem_cons_of_mem _ hr)]
      intro hcontra
      exact hno row (List.mem_cons_self _ _) hcontra.1

theorem scanLE_nil_of_no_int (j : Nat) (v : Int) :
    ∀ (rows : List (List Cell)) (p : Nat),
      (∀ row ∈ rows, (cellAt row j).ctype ≠ 1) → scanLE j v rows p = [] := by
  intro rows
  induction rows with
  | nil => intro p _; rfl
  | cons row rest ih =>
      intro p hno
      unfold scanLE
      rw [if_neg, ih (p + 1) fun r hr => hno r (List.mem_cons_of_mem _ hr)]
      intro hcontra
      exact hno row (List.mem_cons_self _ _) hcontra.1

/-- C5 counterexample: `linearFindTopN`, `linearFindEqual` and
`linearFindMax` applied to a Text column of a one-row table just return the
empty result set (or NULL) — there is no error report anywhere in these
functions, contradicting the claim that such a search "fails with an
explicit error; it does not return an empty result set". -/
theorem kind_mismatch_counterexample :
    linearFindTopN ⟨[⟨"name", 2⟩], [[Cell.strCell "a"]]⟩ 0 1 = [] ∧
    linearFindEqual ⟨[⟨"name", 2⟩], [[Cell.strCell "a"]]⟩ 0 5 = [] ∧
    linearFindMax ⟨[⟨"name", 2⟩], [[Cell.strCell "a"]]⟩ 0 = none := by
  refine ⟨?_, rfl, rfl⟩
  unfold linearFindTopN
  rw [if_pos]
  right; left; decide

/-- C5 amended: an integer-only search (TopN, BottomN, Equal, GE, LE, MAX,
MIN) issued against a Text column of a well-formed table returns an empty
result set (`[]`, or `none` for the single-extremum searches); no error is
reported by the search functions themselves — only the interactive menu
layer rejects such combinations. -/
theorem kind_mismatch_returns_empty (t : Table) (j : Nat) (hwf : WFTable t)
    (hj : j < t.columns.length) (hty : (colAt t.columns j).ctype = 2) :
    (∀ n : Int, linearFindTopN t j n = [] ∧ linearFindBottomN t j n = []) ∧
    (∀ v : Int, linearFindEqual t j v = [] ∧ linearFindGE t j v = [] ∧
      linearFindLE t j v = []) ∧
    linearFindMax t j = none ∧ linearFindMin t j = none := by
  have hno : ∀ row ∈ t.rows, (cellAt row j).ctype ≠ 1 := by
    intro row hr
    rw [(hwf.2 row hr).2 j hj, hty]
    omega
  have hty1 : ¬ ((colAt t.columns j).ctype = 1) := by rw [hty]; omega
  refine ⟨fun n => ⟨?_, ?_⟩, fun v => ⟨?_, ?_, ?_⟩, ?_, ?_⟩
  · unfold linearFindTopN; rw [if_pos (Or.inr (Or.inl hty1))]
  · unfold linearFindBottomN; rw [if_pos (Or.inr (Or.inl hty1))]
  · exact scanEqual_nil_of_no_int j v t.rows 1 hno
  · exact scanGE_nil_of_no_int j v t.rows 1 hno
  · exact scanLE_nil_of_no_int j v t.rows 1 hno
  · unfold linearFindMax
    cases t.rows with
    | nil => rfl
    | cons r0 rest =>
        show (if (colAt t.columns j).ctype = 1
          then some (linearFindMaxAux j rest r0 1 2) else none) = none
        rw [if_neg hty1]
  · unfold linearFindMin
    cases t.rows with
    | nil => rfl
    | cons r0 rest =>
        show (if (colAt t.columns j).ctype = 1
          then some (linearFindMinAux j rest r0 1 2) else none) = none
        rw [if_neg hty1]

theorem kind_mismatch_returns_empty_witness :
    (∀ n : Int,
      linearFindTopN ⟨[⟨"name", 2⟩], [[Cell.strCell "a"]]⟩ 0 n = [] ∧
      linearFindBottomN ⟨[⟨"name", 2⟩], [[Cell.strCell "a"]]⟩ 0 n = []) ∧
    (∀ v : Int,
      linearFindEqual ⟨[⟨"name", 2⟩], [[Cell.strCell "a"]]⟩ 0 v = [] ∧
      linearFindGE ⟨[⟨"name", 2⟩], [[Cell.strCell "a"]]⟩ 0 v = [] ∧
      linearFindLE ⟨[⟨"name", 2⟩], [[Cell.strCell "a"]]⟩ 0 v = []) ∧
    linearFindMax ⟨[⟨"name", 2⟩], [[Cell.strCell "a"]]⟩ 0 = none ∧
    linearFindMin ⟨[⟨"name", 2⟩], [[Cell.strCell "a"]]⟩ 0 = none :=
  kind_mismatch_returns_empty ⟨[⟨"name", 2⟩], [[Cell.strCell "a"]]⟩ 0
    (by decide) (by decide) (by decide)

/-! ## Load validation behaviour -/

/-- C6 counterexample: a persisted object missing the required `records`
field does not make the load fail — it produces a (partial) table carrying
the schema and zero rows. -/
theorem load_missing_records_counterexample :
    loadTableFromJson (some (Json.obj
      [("numColumns", Json.num 1),
       ("columns", Json.arr
         [Json.obj [("name", Json.str "id"), ("type", Json.num 1)]])])) =
      LoadResult.ok ⟨[⟨"id", 1⟩], []⟩ ∧
    loadTableFromJson (some (Json.obj
      [("numColumns", Json.num 1),
       ("columns", Json.arr
         [Json.obj [("name", Json.str "id"), ("type", Json.num 1)]])])) ≠
      LoadResult.failed := by
  constructor
  · rfl
  · decide

/-- C6 amended: only an unparseable representation fails cleanly (the NULL
check on `cJSON_Parse`).  Missing required fields are not validated: a
missing `records` array silently yields a fully-formed zero-row table, and
a missing `numColumns` (similarly a missing column `name`/`type` or record
value) dereferences a NULL pointer instead of failing cleanly. -/
theorem load_validation_behaviour :
    loadTableFromJson none = LoadResult.failed ∧
    loadTableFromJson (some (Json.obj
      [("numColumns", Json.num 1),
       ("columns", Json.arr
         [Json.obj [("name", Json.str "id"), ("type", Json.num 1)]])])) =
      LoadResult.ok ⟨[⟨"id", 1⟩], []⟩ ∧
    loadTableFromJson (some (Json.obj [])) = LoadResult.crash ∧
    loadTableFromJson (some (Json.obj
      [("numColumns", Json.num 1),
       ("columns", Json.arr [Json.obj [("type", Json.num 1)]])])) =
      LoadResult.crash := by
  exact ⟨rfl, rfl, rfl, rfl⟩

/-! ## Linear single-extremum searches -/

theorem linearFindMaxAux_spec (j : Nat) :
    ∀ (rows : List (List Cell)) (best : List Cell) (bestNum rowNum : Nat),
      (linearFindMaxAux j rows best bestNum rowNum = (best, bestNum) ∧
        ∀ x ∈ rows, (cellAt x j).int_val ≤ (cellAt best j).int_val) ∨
      (∃ i, rows.get? i = some (linearFindMaxAux j rows best bestNum rowNum).1 ∧
        (linearFindMaxAux j rows best bestNum rowNum).2 = rowNum + i ∧
        (cellAt best j).int_val <
          (cellAt (linearFindMaxAux j rows best bestNum rowNum).1 j).int_val ∧
        (∀ x ∈ rows, (cellAt x j).int_val ≤
          (cellAt (linearFindMaxAux j rows best bestNum rowNum).1 j).int_val) ∧
        ∀ i' < i, ∀ x, rows.get? i' = some x →
          (cellAt x j).int_val <
            (cellAt (linearFindMaxAux j rows best bestNum rowNum).1 j).int_val) := by
  intro rows
  induction rows with
  | nil =>
      intro best bestNum rowNum
      exact Or.inl ⟨rfl, by intro x hx; simp at hx⟩
  | cons row rest ih =>
      intro best bestNum rowNum
      have hstep : linearFindMaxAux j (row :: rest) best bestNum rowNum =
          if (cellAt best j).int_val < (cellAt row j).int_val then
            linearFindMaxAux j rest row rowNum (rowNum + 1)
          else linearFindMaxAux j rest best bestNum (rowNum + 1) := rfl
      by_cases hgt : (cellAt best j).int_val < (cellAt row j).int_val
      · have hred : linearFindMaxAux j (row :: rest) best bestNum rowNum =
            linearFindMaxAux j rest row rowNum (rowNum + 1) := by
          rw [hstep, if_pos hgt]
        rw [hred]
        rcases ih row rowNum (rowNum + 1) with ⟨heq, hle⟩ |
          ⟨i, hget, hp, hbt, hall, hfirst⟩
        · refine Or.inr ⟨0, ?_, ?_, ?_, ?_, ?_⟩
          · rw [heq]; rfl
          · rw [heq]; simp
          · rw [heq]; exact hgt
          · rw [heq]
            intro x hx
            rcases List.mem_cons.mp hx with h | h
            · rw [h]
            · exact hle x h
          · intro i' hi'; omega
        · refine Or.inr ⟨i + 1, ?_, ?_, ?_, ?_, ?_⟩
          · simpa using hget
          · omega
          · exact lt_trans hgt hbt
          · intro x hx
            rcases List.mem_cons.mp hx with h | h
            · rw [h]; exact le_of_lt hbt
            · exact hall x h
          · intro i' hi' x hx
            match i', hx with
            | 0, hx =>
                have hxr : row = x := by simpa using hx
                rw [← hxr]; exact hbt
            | i'' + 1, hx =>
                exact hfirst i'' (by omega) x (by simpa using hx)
      · have hred : linearFindMaxAux j (row :: rest) best bestNum rowNum =
            linearFindMaxAux j rest best bestNum (rowNum + 1) := by
          rw [hstep, if_neg hgt]
        rw [hred]
        rcases ih best bestNum (rowNum + 1) with ⟨heq, hle⟩ |
          ⟨i, hget, hp, hbt, hall, hfirst⟩
        · refine Or.inl ⟨heq, ?_⟩
          intro x hx
          rcases List.mem_cons.mp hx with h | h
          · rw [h]; omega
          · exact hle x h
        · refine Or.inr ⟨i + 1, ?_, ?_, ?_, ?_, ?_⟩
          · simpa using hget
          · omega
          · exact hbt
          · intro x hx
            rcases List.mem_cons.mp hx with h | h
            · rw [h]
              have hrb : (cellAt row j).int_val ≤ (cellAt best j).int_val := by
                omega
              exact le_trans hrb (le_of_lt hbt)
            · exact hall x h
          · intro i' hi' x hx
            match i', hx with
            | 0, hx =>
                have hxr : row = x := by simpa using hx
                rw [← hxr]
                have hrb : (cellAt row j).int_val ≤ (cellAt best j).int_val := by
                  omega
                omega
            | i'' + 1, hx =>
                exact hfirst i'' (by omega) x (by simpa using hx)

theorem linearFindMinAux_spec (j : Nat) :
    ∀ (rows : List (List Cell)) (best : List Cell) (bestNum rowNum : Nat),
      (linearFindMinAux j rows best bestNum rowNum = (best, bestNum) ∧
        ∀ x ∈ rows, (cellAt best j).int_val ≤ (cellAt x j).int_val) ∨
      (∃ i, rows.get? i = some (linearFindMinAux j rows best bestNum rowNum).1 ∧
        (linearFindMinAux j rows best bestNum rowNum).2 = rowNum + i ∧
        (cellAt (linearFindMinAux j rows best bestNum rowNum).1 j).int_val <
          (cellAt best j).int_val ∧
        (∀ x ∈ rows, (cellAt (linearFindMinAux j rows best bestNum rowNum).1 j).int_val ≤
          (cellAt x j).int_val) ∧
        ∀ i' < i, ∀ x, rows.get? i' = some x →
          (cellAt (linearFindMinAux j rows best bestNum rowNum).1 j).int_val <
            (cellAt x j).int_val) := by
  intro rows
  induction rows with
  | nil =>
      intro best bestNum rowNum
      exact Or.inl ⟨rfl, by intro x hx; simp at hx⟩
  | cons row rest ih =>
      intro best bestNum rowNum
      have hstep : linearFindMinAux j (row :: rest) best bestNum rowNum =
          if (cellAt row j).int_val < (cellAt best j).int_val then
            linearFindMinAux j rest row rowNum (rowNum + 1)
          else linearFindMinAux j rest best bestNum (rowNum + 1) := rfl
      by_cases hgt : (cellAt row j).int_val < (cellAt best j).int_val
      · have hred : linearFindMinAux j (row :: rest) best bestNum rowNum =
            linearFindMinAux j rest row rowNum (rowNum + 1) := by
          rw [hstep, if_pos hgt]
        rw [hred]
        rcases ih row rowNum (rowNum + 1) with ⟨heq, hle⟩ |
          ⟨i, hget, hp, hbt, hall, hfirst⟩
        · refine Or.inr ⟨0, ?_, ?_, ?_, ?_, ?_⟩
          · rw [heq]; rfl
          · rw [heq]; simp
          · rw [heq]; exact hgt
          · rw [heq]
            intro x hx
            rcases List.mem_cons.mp hx with h | h
            · rw [h]
            · exact hle x h
          · intro i' hi'; omega
        · refine Or.inr ⟨i + 1, ?_, ?_, ?_, ?_, ?_⟩
          · simpa using hget
          · omega
          · exact lt_trans hbt hgt
          · intro x hx
            rcases List.mem_cons.mp hx with h | h
            · rw [h]; exact le_of_lt hbt
            · exact hall x h
          · intro i' hi' x hx
            match i', hx with
            | 0, hx =>
                have hxr : row = x := by simpa using hx
                rw [← hxr]; exact hbt
            | i'' + 1, hx =>
                exact hfirst i'' (by omega) x (by simpa using hx)
      · have hred : linearFindMinAux j (row :: rest) best bestNum rowNum =
            linearFindMinAux j rest best bestNum (rowNum + 1) := by
          rw [hstep, if_neg hgt]
        rw [hred]
        rcases ih best bestNum (rowNum + 1) with ⟨heq, hle⟩ |
          ⟨i, hget, hp, hbt, hall, hfirst⟩
        · refine Or.inl ⟨heq, ?_⟩
          intro x hx
          rcases List.mem_cons.mp hx with h | h
          · rw [h]; omega
          · exact hle x h
        · refine Or.inr ⟨i + 1, ?_, ?_, ?_, ?_, ?_⟩
          · simpa using hget
          · omega
          · exact hbt
          · intro x hx
            rcases List.mem_cons.mp hx with h | h
            · rw [h]
              have hrb : (cellAt best j).int_val ≤ (cellAt row j).int_val := by
                omega
              exact le_trans (le_of_lt hbt) hrb
            · exact hall x h
          · intro i' hi' x hx
            match i', hx with
            | 0, hx =>
                have hxr : row = x := by simpa using hx
                rw [← hxr]
                have hrb : (cellAt best j).int_val ≤ (cellAt row j).int_val := by
                  omega
                omega
            | i'' + 1, hx =>
                exact hfirst i'' (by omega) x (by simpa using hx)

/-- C9: on a non-empty table and an Integer column, `linearFindMax` and
`linearFindMin` each return exactly one row with its 1-based position; the
value there is the column's extremum, and every strictly earlier row has a
strictly smaller (resp. larger) value — ties keep the first occurrence. -/
theorem linear_extremum_first_occurrence (t : Table) (j : Nat)
    (hne : t.rows ≠ []) (hty : (colAt t.columns j).ctype = 1) :
    (∃ row p, linearFindMax t j = some (row, p) ∧ 1 ≤ p ∧ p ≤ t.rows.length ∧
      t.rows.get? (p - 1) = some row ∧
      (∀ x ∈ t.rows, (cellAt x j).int_val ≤ (cellAt row j).int_val) ∧
      (∀ i < p - 1, ∀ x, t.rows.get? i = some x →
        (cellAt x j).int_val < (cellAt row j).int_val)) ∧
    (∃ row p, linearFindMin t j = some (row, p) ∧ 1 ≤ p ∧ p ≤ t.rows.length ∧
      t.rows.get? (p - 1) = some row ∧
      (∀ x ∈ t.rows, (cellAt row j).int_val ≤ (cellAt x j).int_val) ∧
      (∀ i < p - 1, ∀ x, t.rows.get? i = some x →
        (cellAt row j).int_val < (cellAt x j).int_val)) := by
  obtain ⟨r0, rest, hrows⟩ : ∃ r0 rest, t.rows = r0 :: rest := by
    cases hr : t.rows with
    | nil => exact absurd hr hne
    | cons a b => exact ⟨a, b, rfl⟩
  constructor
  · have hmax : linearFindMax t j = some (linearFindMaxAux j rest r0 1 2) := by
      unfold linearFindMax
      rw [hrows]
      show (if (colAt t.columns j).ctype = 1
        then some (linearFindMaxAux j rest r0 1 2) else none) = _
      rw [if_pos hty]
    rcases linearFindMaxAux_spec j rest r0 1 2 with ⟨heq, hle⟩ |
      ⟨i, hget, hp, hbt, hall, hfirst⟩
    · refine ⟨r0, 1, by rw [hmax, heq], le_refl 1, ?_, ?_, ?_, ?_⟩
      · rw [hrows]; simp
      · rw [hrows]; rfl
      · rw [hrows]
        intro x hx
        rcases List.mem_cons.mp hx with h | h
        · rw [h]
        · exact hle x h
      · intro i hi; omega
    · have hilen : i < rest.length := by
        rcases List.get?_eq_some.mp hget with ⟨hh, _⟩
        exact hh
      refine ⟨(linearFindMaxAux j rest r0 1 2).1,
        (linearFindMaxAux j rest r0 1 2).2, ?_, ?_, ?_, ?_, ?_, ?_⟩
      · rw [hmax]
      · omega
      · rw [hrows]; simp only [List.length_cons]; omega
      · rw [hrows, hp]
        show (r0 :: rest).get? (2 + i - 1) = _
        have h21 : 2 + i - 1 = i + 1 := by omega
        rw [h21]
        simpa using hget
      · rw [hrows]
        intro x hx
        rcases List.mem_cons.mp hx with h | h
        · rw [h]; exact le_of_lt hbt
        · exact hall x h
      · rw [hrows, hp]
        intro i' hi' x hx
        match i', hx with
        | 0, hx =>
            have hxr : r0 = x := by simpa using hx
            rw [← hxr]; exact hbt
        | i'' + 1, hx =>
            exact hfirst i'' (by omega) x (by simpa using hx)
  · have hmin : linearFindMin t j = some (linearFindMinAux j rest r0 1 2) := by
      unfold linearFindMin
      rw [hrows]
      show (if (colAt t.columns j).ctype = 1
        then some (linearFindMinAux j rest r0 1 2) else none) = _
      rw [if_pos hty]
    rcases linearFindMinAux_spec j rest r0 1 2 with ⟨heq, hle⟩ |
      ⟨i, hget, hp, hbt, hall, hfirst⟩
    · refine ⟨r0, 1, by rw [hmin, heq], le_refl 1, ?_, ?_, ?_, ?_⟩
      · rw [hrows]; simp
      · rw [hrows]; rfl
      · rw [hrows]
        intro x hx
        rcases List.mem_cons.mp hx with h | h
        · rw [h]
        · exact hle x h
      · intro i hi; omega
    · have hilen : i < rest.length := by
        rcases List.get?_eq_some.mp hget with ⟨hh, _⟩
        exact hh
      refine ⟨(linearFindMinAux j rest r0 1 2).1,
        (linearFindMinAux j rest r0 1 2).2, ?_, ?_, ?_, ?_, ?_, ?_⟩
      · rw [hmin]
      · omega
      · rw [hrows]; simp only [List.length_cons]; omega
      · rw [hrows, hp]
        show (r0 :: rest).get? (2 + i - 1) = _
        have h21 : 2 + i - 1 = i + 1 := by omega
        rw [h21]
        simpa using hget
      · rw [hrows]
        intro x hx
        rcases List.mem_cons.mp hx with h | h
        · rw [h]; exact le_of_lt hbt
        · exact hall x h
      · rw [hrows, hp]
        intro i' hi' x hx
        match i', hx with
        | 0, hx =>
            have hxr : r0 = x := by simpa using hx
            rw [← hxr]; exact hbt
        | i'' + 1, hx =>
            exact hfirst i'' (by omega) x (by simpa using hx)

theorem linear_extremum_first_occurrence_witness :
    (∃ row p,
      linearFindMax ⟨[⟨"id", 1⟩],
        [[Cell.intCell 3], [Cell.intCell 7], [Cell.intCell 7]]⟩ 0 =
          some (row, p) ∧
      1 ≤ p ∧
      p ≤ (([[Cell.intCell 3], [Cell.intCell 7], [Cell.intCell 7]] :
        List (List Cell))).length ∧
      ([[Cell.intCell 3], [Cell.intCell 7], [Cell.intCell 7]] :
        List (List Cell)).get? (p - 1) = some row ∧
      (∀ x ∈ ([[Cell.intCell 3], [Cell.intCell 7], [Cell.intCell 7]] :
        List (List Cell)), (cellAt x 0).int_val ≤ (cellAt row 0).int_val) ∧
      (∀ i < p - 1, ∀ x,
        ([[Cell.intCell 3], [Cell.intCell 7], [Cell.intCell 7]] :
          List (List Cell)).get? i = some x →
        (cellAt x 0).int_val < (cellAt row 0).int_val)) ∧
    (∃ row p,
      linearFindMin ⟨[⟨"id", 1⟩],
        [[Cell.intCell 3], [Cell.intCell 7], [Cell.intCell 7]]⟩ 0 =
          some (row, p) ∧
      1 ≤ p ∧
      p ≤ (([[Cell.intCell 3], [Cell.intCell 7], [Cell.intCell 7]] :
        List (List Cell))).length ∧
      ([[Cell.intCell 3], [Cell.intCell 7], [Cell.intCell 7]] :
        List (List Cell)).get? (p - 1) = some row ∧
      (∀ x ∈ ([[Cell.intCell 3], [Cell.intCell 7], [Cell.intCell 7]] :
        List (List Cell)), (cellAt row 0).int_val ≤ (cellAt x 0).int_val) ∧
      (∀ i < p - 1, ∀ x,
        ([[Cell.intCell 3], [Cell.intCell 7], [Cell.intCell 7]] :
          List (List Cell)).get? i = some x →
        (cellAt row 0).int_val < (cellAt x 0).int_val)) :=
  linear_extremum_first_occurrence
    ⟨[⟨"id", 1⟩], [[Cell.intCell 3], [Cell.intCell 7], [Cell.intCell 7]]⟩ 0
    (by decide) (by decide)

/-! ## In-order traversal: rotations and insertion at the list level -/

namespace AVLTree

theorem inorder_rotateRight : ∀ t : AVLTree α,
    inorderPairs (rotateRight t) = inorderPairs t
  | .nil => rfl
  | .node _ _ .nil _ _ => rfl
  | .node yk yr (.node xk xr t1 t2 hx) t3 h => by
      show inorderPairs (.node xk xr t1
        (.node yk yr t2 t3 (1 + max (getHeight t2) (getHeight t3))) _) = _
      simp [inorderPairs, List.append_assoc]

theorem inorder_rotateLeft : ∀ t : AVLTree α,
    inorderPairs (rotateLeft t) = inorderPairs t
  | .nil => rfl
  | .node _ _ _ .nil _ => rfl
  | .node xk xr t1 (.node yk yr t2 t3 hy) h => by
      show inorderPairs (.node yk yr
        (.node xk xr t1 t2 (1 + max (getHeight t1) (getHeight t2))) t3 _) = _
      simp [inorderPairs, List.append_assoc]

theorem inorder_insertRebalance [LinearOrder α] (key k : α) (rcd : Nat)
    (l r : AVLTree α) :
    inorderPairs (insertRebalance key k rcd l r) =
      inorderPairs l ++ (k, rcd) :: inorderPairs r := by
  unfold insertRebalance
  split
  · split
    · split
      · simp [inorder_rotateRight, inorderPairs]
      · split
        · simp [inorder_rotateRight, inorder_rotateLeft, inorderPairs]
        · simp [inorderPairs]
    · simp [inorderPairs]
  · split
    · split
      · split
        · simp [inorder_rotateLeft, inorderPairs]
        · split
          · simp [inorder_rotateLeft, inorder_rotateRight, inorderPairs]
          · simp [inorderPairs]
      · simp [inorderPairs]
    · simp [inorderPairs]

end AVLTree

open AVLTree

theorem linsert_cons_step {α : Type} [LinearOrder α] (key : α) (rcd : Nat)
    (a : α) (ar : Nat) (zs : List (α × Nat)) :
    linsert key rcd ((a, ar) :: zs) =
      if key < a then (key, rcd) :: (a, ar) :: zs
      else if a < key then (a, ar) :: linsert key rcd zs
      else (a, ar) :: zs := rfl

theorem linsert_append_lt {α : Type} [LinearOrder α] (key : α) (rcd : Nat)
    (k : α) (kr : Nat) (ys : List (α × Nat)) (hk : key < k) :
    ∀ xs, linsert key rcd (xs ++ (k, kr) :: ys) =
      linsert key rcd xs ++ (k, kr) :: ys := by
  intro xs
  induction xs with
  | nil =>
      show linsert key rcd ((k, kr) :: ys) = _
      rw [linsert_cons_step, if_pos hk]
      rfl
  | cons a xs ih =>
      obtain ⟨ak, ar⟩ := a
      show linsert key rcd ((ak, ar) :: (xs ++ (k, kr) :: ys)) =
        linsert key rcd ((ak, ar) :: xs) ++ (k, kr) :: ys
      rw [linsert_cons_step, linsert_cons_step]
      by_cases h1 : key < ak
      · rw [if_pos h1, if_pos h1]
        rfl
      · rw [if_neg h1, if_neg h1]
        by_cases h2 : ak < key
        · rw [if_pos h2, if_pos h2, ih]
          rfl
        · rw [if_neg h2, if_neg h2]
          rfl

theorem linsert_append_gt {α : Type} [LinearOrder α] (key : α) (rcd : Nat)
    (k : α) (kr : Nat) (ys : List (α × Nat)) (hk : k < key) :
    ∀ xs, (∀ e ∈ xs, e.1 < key) →
      linsert key rcd (xs ++ (k, kr) :: ys) =
        xs ++ (k, kr) :: linsert key rcd ys := by
  intro xs
  induction xs with
  | nil =>
      intro _
      show linsert key rcd ((k, kr) :: ys) = [] ++ (k, kr) :: linsert key rcd ys
      rw [linsert_cons_step, if_neg (not_lt_of_gt hk), if_pos hk]
      rfl
  | cons a xs ih =>
      intro hall
      obtain ⟨ak, ar⟩ := a
      have hak : ak < key := hall (ak, ar) (List.mem_cons_self _ _)
      show linsert key rcd ((ak, ar) :: (xs ++ (k, kr) :: ys)) =
        (ak, ar) :: (xs ++ (k, kr) :: linsert key rcd ys)
      rw [linsert_cons_step, if_neg (not_lt_of_gt hak), if_pos hak,
        ih fun e he => hall e (List.mem_cons_of_mem _ he)]

theorem linsert_append_eq {α : Type} [LinearOrder α] (key : α) (rcd : Nat)
    (kr : Nat) (ys : List (α × Nat)) :
    ∀ xs, (∀ e ∈ xs, e.1 < key) →
      linsert key rcd (xs ++ (key, kr) :: ys) = xs ++ (key, kr) :: ys := by
  intro xs
  induction xs with
  | nil =>
      intro _
      show linsert key rcd ((key, kr) :: ys) = [] ++ (key, kr) :: ys
      rw [linsert_cons_step, if_neg (lt_irrefl key), if_neg (lt_irrefl key)]
      rfl
  | cons a xs ih =>
      intro hall
      obtain ⟨ak, ar⟩ := a
      have hak : ak < key := hall (ak, ar) (List.mem_cons_self _ _)
      show linsert key rcd ((ak, ar) :: (xs ++ (key, kr) :: ys)) =
        (ak, ar) :: (xs ++ (key, kr) :: ys)
      rw [linsert_cons_step, if_neg (not_lt_of_gt hak), if_pos hak,
        ih fun e he => hall e (List.mem_cons_of_mem _ he)]

theorem keys_lt_of_pairs {α : Type} [LinearOrder α] {t : AVLTree α} {k key : α}
    (hlk : ∀ x ∈ inorderKeys t, x < k) (hk : k ≤ key) :
    ∀ e ∈ inorderPairs t, e.1 < key := by
  intro e he
  exact lt_of_lt_of_le (hlk e.1 (List.mem_map_of_mem Prod.fst he)) hk

theorem inorder_insertAVL {α : Type} [LinearOrder α] (key : α) (rcd : Nat) :
    ∀ t : AVLTree α, BSTOrdered t →
      inorderPairs (insertAVL t key rcd) = linsert key rcd (inorderPairs t) := by
  intro t
  induction t with
  | nil => intro _; rfl
  | node k krcd l r h ihl ihr =>
      intro hbst
      obtain ⟨hlk, hrk, hbl, hbr⟩ := hbst
      have hstep : insertAVL (.node k krcd l r h) key rcd =
          if key < k then insertRebalance key k krcd (insertAVL l key rcd) r
          else if k < key then insertRebalance key k krcd l (insertAVL r key rcd)
          else .node k krcd l r h := rfl
      rcases lt_trichotomy key k with hlt | heq | hgt
      · rw [hstep, if_pos hlt, inorder_insertRebalance, ihl hbl]
        show _ = linsert key rcd (inorderPairs l ++ (k, krcd) :: inorderPairs r)
        rw [linsert_append_lt key rcd k krcd (inorderPairs r) hlt (inorderPairs l)]
      · subst heq
        rw [hstep, if_neg (lt_irrefl key), if_neg (lt_irrefl key)]
        show inorderPairs l ++ (key, krcd) :: inorderPairs r =
          linsert key rcd (inorderPairs l ++ (key, krcd) :: inorderPairs r)
        rw [linsert_append_eq key rcd krcd (inorderPairs r) (inorderPairs l)
          (keys_lt_of_pairs hlk (le_refl key))]
      · rw [hstep, if_neg (not_lt_of_gt hgt), if_pos hgt,
          inorder_insertRebalance, ihr hbr]
        show _ = linsert key rcd (inorderPairs l ++ (k, krcd) :: inorderPairs r)
        rw [linsert_append_gt key rcd k krcd (inorderPairs r) hgt (inorderPairs l)
          (keys_lt_of_pairs hlk (le_of_lt hgt))]

theorem mem_linsert {α : Type} [LinearOrder α] (key : α) (rcd : Nat) :
    ∀ xs, ∀ e ∈ linsert key rcd xs, e = (key, rcd) ∨ e ∈ xs := by
  intro xs
  induction xs with
  | nil =>
      intro e he
      left
      simpa [linsert] using he
  | cons a xs ih =>
      obtain ⟨ak, ar⟩ := a
      intro e he
      unfold linsert at he
      by_cases h1 : key < ak
      · rw [if_pos h1] at he
        rcases List.mem_cons.mp he with h | h
        · exact Or.inl h
        · exact Or.inr h
      · rw [if_neg h1] at he
        by_cases h2 : ak < key
        · rw [if_pos h2] at he
          rcases List.mem_cons.mp he with h | h
          · exact Or.inr (List.mem_cons.mpr (Or.inl h))
          · rcases ih e h with h' | h'
            · exact Or.inl h'
            · exact Or.inr (List.mem_cons.mpr (Or.inr h'))
        · rw [if_neg h2] at he
          exact Or.inr he

theorem sortedPairs_linsert {α : Type} [LinearOrder α] (key : α) (rcd : Nat) :
    ∀ xs, SortedPairs xs → SortedPairs (linsert key rcd xs) := by
  intro xs
  induction xs with
  | nil =>
      intro _
      unfold linsert SortedPairs
      exact List.pairwise_singleton _ _
  | cons a xs ih =>
      obtain ⟨ak, ar⟩ := a
      intro hs
      have hhead : ∀ b ∈ xs, ak < b.1 :=
        fun b hb => (List.pairwise_cons.mp hs).1 b hb
      have htail : SortedPairs xs := (List.pairwise_cons.mp hs).2
      unfold linsert
      by_cases h1 : key < ak
      · rw [if_pos h1]
        refine List.pairwise_cons.mpr ⟨?_, hs⟩
        intro b hb
        rcases List.mem_cons.mp hb with h | h
        · rw [h]; exact h1
        · exact lt_trans h1 (hhead b h)
      · rw [if_neg h1]
        by_cases h2 : ak < key
        · rw [if_pos h2]
          refine List.pairwise_cons.mpr ⟨?_, ih htail⟩
          intro b hb
          rcases mem_linsert key rcd xs b hb with h | h
          · rw [h]; exact h2
          · exact hhead b h
        · rw [if_neg h2]
          exact hs

theorem sorted_of_bst {α : Type} [LinearOrder α] :
    ∀ t : AVLTree α, BSTOrdered t → SortedPairs (inorderPairs t) := by
  intro t
  induction t with
  | nil => intro _; exact List.Pairwise.nil
  | node k krcd l r h ihl ihr =>
      intro hbst
      obtain ⟨hlk, hrk, hbl, hbr⟩ := hbst
      show SortedPairs (inorderPairs l ++ (k, krcd) :: inorderPairs r)
      unfold SortedPairs
      rw [List.pairwise_append]
      refine ⟨ihl hbl, ?_, ?_⟩
      · refine List.pairwise_cons.mpr ⟨?_, ihr hbr⟩
        intro b hb
        exact hrk b.1 (List.mem_map_of_mem Prod.fst hb)
      · intro a ha b hb
        have hak : a.1 < k := hlk a.1 (List.mem_map_of_mem Prod.fst ha)
        rcases List.mem_cons.mp hb with h | h
        · rw [h]; exact hak
        · exact lt_trans hak (hrk b.1 (List.mem_map_of_mem Prod.fst h))

theorem bst_of_sorted {α : Type} [LinearOrder α] :
    ∀ t : AVLTree α, SortedPairs (inorderPairs t) → BSTOrdered t := by
  intro t
  induction t with
  | nil => intro _; trivial
  | node k krcd l r h ihl ihr =>
      intro hs
      have hs' : SortedPairs (inorderPairs l ++ (k, krcd) :: inorderPairs r) := hs
      unfold SortedPairs at hs'
      rw [List.pairwise_append] at hs'
      obtain ⟨hl, hcons, hcross⟩ := hs'
      have hr : SortedPairs (inorderPairs r) := (List.pairwise_cons.mp hcons).2
      refine ⟨?_, ?_, ihl hl, ihr hr⟩
      · intro x hx
        obtain ⟨e, he, hex⟩ := List.mem_map.mp hx
        rw [← hex]
        exact hcross e he (k, krcd) (List.mem_cons_self _ _)
      · intro x hx
        obtain ⟨e, he, hex⟩ := List.mem_map.mp hx
        rw [← hex]
        exact (List.pairwise_cons.mp hcons).1 e he

theorem bst_insertAVL {α : Type} [LinearOrder α] (key : α) (rcd : Nat)
    (t : AVLTree α) (hbst : BSTOrdered t) : BSTOrdered (insertAVL t key rcd) :=
  bst_of_sorted _ (by
    rw [inorder_insertAVL key rcd t hbst]
    exact sortedPairs_linsert key rcd _ (sorted_of_bst t hbst))

/-! ## Height/balance invariant preservation -/

theorem avlInv_nil {α : Type} : AVLInv (AVLTree.nil : AVLTree α) :=
  ⟨trivial, trivial⟩

theorem avlInv_node_iff {α : Type} {k : α} {rcd : Nat} {l r : AVLTree α}
    {h : Nat} :
    AVLInv (AVLTree.node k rcd l r h) ↔
      h = 1 + max (getHeight l) (getHeight r) ∧
      getHeight l ≤ getHeight r + 1 ∧ getHeight r ≤ getHeight l + 1 ∧
      AVLInv l ∧ AVLInv r := by
  constructor
  · rintro ⟨⟨hh, hhl, hhr⟩, ⟨hb1, hb2, hbl, hbr⟩⟩
    exact ⟨hh, hb1, hb2, ⟨hhl, hbl⟩, ⟨hhr, hbr⟩⟩
  · rintro ⟨hh, hb1, hb2, ⟨hhl, hbl⟩, ⟨hhr, hbr⟩⟩
    exact ⟨⟨hh, hhl, hhr⟩, ⟨hb1, hb2, hbl, hbr⟩⟩

theorem getHeight_node {α : Type} {k : α} {rcd : Nat} {l r : AVLTree α}
    {h : Nat} : getHeight (AVLTree.node k rcd l r h) = h := rfl

theorem insertRebalance_left_spec {α : Type} [LinearOrder α] (key k : α)
    (rcd : Nat) (l r : AVLTree α) (hl : AVLInv l) (hr : AVLInv r)
    (hub : getHeight l ≤ getHeight r + 2)
    (hlb : getHeight r ≤ getHeight l + 1)
    (hsh : getHeight l = getHeight r + 2 → TiltedToward key l) :
    AVLInv (insertRebalance key k rcd l r) ∧
    ((getHeight l ≤ getHeight r + 1 ∧
        insertRebalance key k rcd l r =
          .node k rcd l r (1 + max (getHeight l) (getHeight r))) ∨
      (getHeight l = getHeight r + 2 ∧
        getHeight (insertRebalance key k rcd l r) = getHeight r + 2)) := by
  by_cases hle : getHeight l ≤ getHeight r + 1
  · have hc1 : ¬(1 < (getHeight l : Int) - (getHeight r : Int)) := by omega
    have hc2 : ¬((getHeight l : Int) - (getHeight r : Int) < -1) := by omega
    have hres : insertRebalance key k rcd l r =
        .node k rcd l r (1 + max (getHeight l) (getHeight r)) := by
      unfold insertRebalance
      rw [if_neg hc1, if_neg hc2]
    rw [hres]
    refine ⟨avlInv_node_iff.mpr ⟨rfl, hle, hlb, hl, hr⟩, Or.inl ⟨hle, rfl⟩⟩
  · have hl2 : getHeight l = getHeight r + 2 := by omega
    have htilt := hsh hl2
    match l, hl, hl2, htilt with
    | .nil, _, hl2, _ => exact absurd hl2 (by simp [getHeight])
    | .node lk lrcd a b lh, hl, hl2, htilt =>
        obtain ⟨hlh, hb1, hb2, hIa, hIb⟩ := avlInv_node_iff.mp hl
        have hlhv : getHeight (AVLTree.node lk lrcd a b lh) = lh := rfl
        rw [hlhv] at hl2
        have hc1 : 1 < (getHeight (AVLTree.node lk lrcd a b lh) : Int) -
            (getHeight r : Int) := by
          rw [hlhv]; omega
        rcases htilt with ⟨hklt, hab⟩ | ⟨hkgt, hba⟩
        · -- LL case: single right rotation
          have hmaxab : max (getHeight a) (getHeight b) = getHeight a :=
            max_eq_left (by omega)
          rw [hmaxab] at hlh
          have hav : getHeight a = getHeight r + 1 := by omega
          have hbv : getHeight b = getHeight r := by omega
          have hm1 : max (getHeight b) (getHeight r) = getHeight r := by
            rw [hbv, max_self]
          have hm2 : max (getHeight a)
              (1 + max (getHeight b) (getHeight r)) = getHeight a := by
            rw [hm1]; exact max_eq_left (by omega)
          have hres : insertRebalance key k rcd (.node lk lrcd a b lh) r =
              .node lk lrcd a
                (.node k rcd b r (1 + max (getHeight b) (getHeight r)))
                (1 + max (getHeight a)
                  (1 + max (getHeight b) (getHeight r))) := by
            unfold insertRebalance
            rw [if_pos hc1]
            show (if key < lk then _ else _) = _
            rw [if_pos hklt]
            rfl
          rw [hres]
          constructor
          · refine avlInv_node_iff.mpr ⟨rfl, ?_, ?_, hIa, ?_⟩
            · simp only [getHeight_node, hm1]; omega
            · simp only [getHeight_node, hm1]; omega
            · refine avlInv_node_iff.mpr ⟨rfl, by omega, by omega, hIb, hr⟩
          · refine Or.inr ⟨by rw [hlhv]; exact hl2, ?_⟩
            simp only [getHeight_node, hm2]
            omega
        · -- LR case: rotate the left child left, then right rotation
          match b, hIb, hb1, hb2, hba, hlh with
          | .nil, _, _, _, hba, _ =>
              exact absurd hba (by simp [getHeight])
          | .node bk brcd b1 b2 bh, hIb, hb1, hb2, hba, hlh =>
              obtain ⟨hbh, hbb1, hbb2, hIb1, hIb2⟩ := avlInv_node_iff.mp hIb
              have hbhv : getHeight (AVLTree.node bk brcd b1 b2 bh) = bh := rfl
              rw [hbhv] at hba hb1 hb2 hlh
              have hmaxab : max (getHeight a) bh = bh :=
                max_eq_right (by omega)
              rw [hmaxab] at hlh
              have hbhval : bh = getHeight r + 1 := by omega
              have hav : getHeight a = getHeight r := by omega
              have hmb : max (getHeight b1) (getHeight b2) = getHeight r := by
                omega
              have h1le : getHeight b1 ≤ getHeight r := by
                rw [← hmb]; exact le_max_left _ _
              have h2le : getHeight b2 ≤ getHeight r := by
                rw [← hmb]; exact le_max_right _ _
              have h12 : getHeight r ≤ getHeight b1 + 1 := by
                rw [← hmb]; exact max_le (by omega) (by omega)
              have h21 : getHeight r ≤ getHeight b2 + 1 := by
                rw [← hmb]; exact max_le (by omega) (by omega)
              have hm1 : max (getHeight a) (getHeight b1) = getHeight a :=
                max_eq_left (by omega)
              have hm2 : max (getHeight b2) (getHeight r) = getHeight r :=
                max_eq_right h2le
              have hm3 : max (1 + max (getHeight a) (getHeight b1))
                  (1 + max (getHeight b2) (getHeight r)) =
                    1 + getHeight r := by
                rw [hm1, hm2, hav, max_self]
              have hres : insertRebalance key k rcd
                  (.node lk lrcd a (.node bk brcd b1 b2 bh) lh) r =
                  .node bk brcd
                    (.node lk lrcd a b1 (1 + max (getHeight a) (getHeight b1)))
                    (.node k rcd b2 r (1 + max (getHeight b2) (getHeight r)))
                    (1 + max
                      (1 + max (getHeight a) (getHeight b1))
                      (1 + max (getHeight b2) (getHeight r))) := by
                unfold insertRebalance
                rw [if_pos hc1]
                show (if key < lk then _ else if lk < key then _ else _) = _
                rw [if_neg (not_lt_of_gt hkgt), if_pos hkgt]
                rfl
              rw [hres]
              constructor
              · refine avlInv_node_iff.mpr ⟨rfl, ?_, ?_, ?_, ?_⟩
                · simp only [getHeight_node, hm1, hm2]; omega
                · simp only [getHeight_node, hm1, hm2]; omega
                · exact avlInv_node_iff.mpr ⟨rfl, by omega, by omega, hIa, hIb1⟩
                · exact avlInv_node_iff.mpr ⟨rfl, by omega, by omega, hIb2, hr⟩
              · refine Or.inr ⟨by rw [hlhv]; exact hl2, ?_⟩
                simp only [getHeight_node, hm3]
                omega

theorem insertRebalance_right_spec {α : Type} [LinearOrder α] (key k : α)
    (rcd : Nat) (l r : AVLTree α) (hl : AVLInv l) (hr : AVLInv r)
    (hub : getHeight r ≤ getHeight l + 2)
    (hlb : getHeight l ≤ getHeight r + 1)
    (hsh : getHeight r = getHeight l + 2 → TiltedToward key r) :
    AVLInv (insertRebalance key k rcd l r) ∧
    ((getHeight r ≤ getHeight l + 1 ∧
        insertRebalance key k rcd l r =
          .node k rcd l r (1 + max (getHeight l) (getHeight r))) ∨
      (getHeight r = getHeight l + 2 ∧
        getHeight (insertRebalance key k rcd l r) = getHeight l + 2)) := by
  by_cases hle : getHeight r ≤ getHeight l + 1
  · have hc1 : ¬(1 < (getHeight l : Int) - (getHeight r : Int)) := by omega
    have hc2 : ¬((getHeight l : Int) - (getHeight r : Int) < -1) := by omega
    have hres : insertRebalance key k rcd l r =
        .node k rcd l r (1 + max (getHeight l) (getHeight r)) := by
      unfold insertRebalance
      rw [if_neg hc1, if_neg hc2]
    rw [hres]
    refine ⟨avlInv_node_iff.mpr ⟨rfl, hlb, hle, hl, hr⟩, Or.inl ⟨hle, rfl⟩⟩
  · have hr2 : getHeight r = getHeight l + 2 := by omega
    have htilt := hsh hr2
    match r, hr, hr2, htilt with
    | .nil, _, hr2, _ => exact absurd hr2 (by simp [getHeight])
    | .node rk rrcd a b rh, hr, hr2, htilt =>
        obtain ⟨hrh, hb1, hb2, hIa, hIb⟩ := avlInv_node_iff.mp hr
        have hrhv : getHeight (AVLTree.node rk rrcd a b rh) = rh := rfl
        rw [hrhv] at hr2
        have hc1 : ¬(1 < (getHeight l : Int) -
            (getHeight (AVLTree.node rk rrcd a b rh) : Int)) := by
          rw [hrhv]; omega
        have hc2 : (getHeight l : Int) -
            (getHeight (AVLTree.node rk rrcd a b rh) : Int) < -1 := by
          rw [hrhv]; omega
        rcases htilt with ⟨hklt, hab⟩ | ⟨hkgt, hba⟩
        · -- RL case: rotate the right child right, then left rotation
          match a, hIa, hb1, hb2, hab, hrh with
          | .nil, _, _, _, hab, _ =>
              exact absurd hab (by simp [getHeight])
          | .node ak arcd a1 a2 ah, hIa, hb1, hb2, hab, hrh =>
              obtain ⟨hah, haa1, haa2, hIa1, hIa2⟩ := avlInv_node_iff.mp hIa
              have hahv : getHeight (AVLTree.node ak arcd a1 a2 ah) = ah := rfl
              rw [hahv] at hab hb1 hb2 hrh
              have hmaxab : max ah (getHeight b) = ah :=
                max_eq_left (by omega)
              rw [hmaxab] at hrh
              have hahval : ah = getHeight l + 1 := by omega
              have hbv : getHeight b = getHeight l := by omega
              have hma : max (getHeight a1) (getHeight a2) = getHeight l := by
                omega
              have h1le : getHeight a1 ≤ getHeight l := by
                rw [← hma]; exact le_max_left _ _
              have h2le : getHeight a2 ≤ getHeight l := by
                rw [← hma]; exact le_max_right _ _
              have h12 : getHeight l ≤ getHeight a1 + 1 := by
                rw [← hma]; exact max_le (by omega) (by omega)
              have h21 : getHeight l ≤ getHeight a2 + 1 := by
                rw [← hma]; exact max_le (by omega) (by omega)
              have hm1 : max (getHeight l) (getHeight a1) = getHeight l :=
                max_eq_left h1le
              have hm2 : max (getHeight a2) (getHeight b) = getHeight b :=
                max_eq_right (by omega)
              have hm3 : max (1 + max (getHeight l) (getHeight a1))
                  (1 + max (getHeight a2) (getHeight b)) =
                    1 + getHeight l := by
                rw [hm1, hm2, hbv, max_self]
              have hres : insertRebalance key k rcd l
                  (.node rk rrcd (.node ak arcd a1 a2 ah) b rh) =
                  .node ak arcd
                    (.node k rcd l a1 (1 + max (getHeight l) (getHeight a1)))
                    (.node rk rrcd a2 b (1 + max (getHeight a2) (getHeight b)))
                    (1 + max
                      (1 + max (getHeight l) (getHeight a1))
                      (1 + max (getHeight a2) (getHeight b))) := by
                unfold insertRebalance
                rw [if_neg hc1, if_pos hc2]
                show (if rk < key then _ else if key < rk then _ else _) = _
                rw [if_neg (not_lt_of_gt hklt), if_pos hklt]
                rfl
              rw [hres]
              constructor
              · refine avlInv_node_iff.mpr ⟨rfl, ?_, ?_, ?_, ?_⟩
                · simp only [getHeight_node, hm1, hm2]; omega
                · simp only [getHeight_node, hm1, hm2]; omega
                · exact avlInv_node_iff.mpr ⟨rfl, by omega, by omega, hl, hIa1⟩
                · exact avlInv_node_iff.mpr ⟨rfl, by omega, by omega, hIa2, hIb⟩
              · refine Or.inr ⟨by rw [hrhv]; exact hr2, ?_⟩
                simp only [getHeight_node, hm3]
                omega
        · -- RR case: single left rotation
          have hmaxab : max (getHeight a) (getHeight b) = getHeight b :=
            max_eq_right (by omega)
          rw [hmaxab] at hrh
          have hbv : getHeight b = getHeight l + 1 := by omega
          have hav : getHeight a = getHeight l := by omega
          have hm1 : max (getHeight l) (getHeight a) = getHeight l := by
            rw [hav, max_self]
          have hm2 : max (1 + max (getHeight l) (getHeight a)) (getHeight b) =
              getHeight b := by
            rw [hm1]; exact max_eq_right (by omega)
          have hres : insertRebalance key k rcd l
              (.node rk rrcd a b rh) =
              .node rk rrcd
                (.node k rcd l a (1 + max (getHeight l) (getHeight a)))
                b
                (1 + max (1 + max (getHeight l) (getHeight a))
                  (getHeight b)) := by
            unfold insertRebalance
            rw [if_neg hc1, if_pos hc2]
            show (if rk < key then _ else _) = _
            rw [if_pos hkgt]
            rfl
          rw [hres]
          constructor
          · refine avlInv_node_iff.mpr ⟨rfl, ?_, ?_, ?_, hIb⟩
            · simp only [getHeight_node, hm1]; omega
            · simp only [getHeight_node, hm1]; omega
            · exact avlInv_node_iff.mpr ⟨rfl, by omega, by omega, hl, hIa⟩
          · refine Or.inr ⟨by rw [hrhv]; exact hr2, ?_⟩
            simp only [getHeight_node, hm2]
            omega

theorem insertAVL_spec {α : Type} [LinearOrder α] (key : α) (rcd : Nat) :
    ∀ t : AVLTree α, AVLInv t →
      AVLInv (insertAVL t key rcd) ∧
      getHeight t ≤ getHeight (insertAVL t key rcd) ∧
      getHeight (insertAVL t key rcd) ≤ getHeight t + 1 ∧
      (getHeight (insertAVL t key rcd) = getHeight t + 1 →
        (t = .nil ∨ TiltedToward key (insertAVL t key rcd))) := by
  intro t
  induction t with
  | nil =>
      intro _
      refine ⟨avlInv_node_iff.mpr ⟨rfl, by omega, by omega, avlInv_nil,
        avlInv_nil⟩, Nat.zero_le _, ?_, fun _ => Or.inl rfl⟩
      show getHeight (AVLTree.node key rcd .nil .nil 1) ≤ getHeight .nil + 1
      rw [getHeight_node]
      omega
  | node k krcd l r h ihl ihr =>
      intro hinv
      obtain ⟨hh, hbl, hbr, hIl, hIr⟩ := avlInv_node_iff.mp hinv
      have hdef : insertAVL (.node k krcd l r h) key rcd =
          if key < k then insertRebalance key k krcd (insertAVL l key rcd) r
          else if k < key then
            insertRebalance key k krcd l (insertAVL r key rcd)
          else .node k krcd l r h := rfl
      rcases lt_trichotomy key k with hlt | heq | hgt
      · rw [hdef, if_pos hlt]
        obtain ⟨hIl', hlo, hhi, hgrow⟩ := ihl hIl
        have hub : getHeight (insertAVL l key rcd) ≤ getHeight r + 2 := by
          omega
        have hlb2 : getHeight r ≤ getHeight (insertAVL l key rcd) + 1 := by
          omega
        have hsh : getHeight (insertAVL l key rcd) = getHeight r + 2 →
            TiltedToward key (insertAVL l key rcd) := by
          intro h2
          rcases hgrow (by omega) with hnil | htl
          · rw [hnil] at h2
            exact absurd (show (1 : Nat) = getHeight r + 2 from h2) (by omega)
          · exact htl
        obtain ⟨hInv, hB⟩ := insertRebalance_left_spec key k krcd
          (insertAVL l key rcd) r hIl' hIr hub hlb2 hsh
        refine ⟨hInv, ?_, ?_, ?_⟩ <;>
          rcases hB with ⟨hble, heqr⟩ | ⟨hl2, hh2⟩
        · rw [heqr, getHeight_node, getHeight_node]
          have e2 : max (getHeight l) (getHeight r) ≤
              max (getHeight (insertAVL l key rcd)) (getHeight r) :=
            max_le_max hlo (le_refl _)
          omega
        · rw [getHeight_node]
          have hmgl : max (getHeight l) (getHeight r) = getHeight l :=
            max_eq_left (by omega)
          rw [hmgl] at hh
          omega
        · rw [heqr, getHeight_node, getHeight_node]
          have e1 : max (getHeight (insertAVL l key rcd)) (getHeight r) ≤
              max (getHeight l) (getHeight r) + 1 :=
            max_le (le_trans hhi (Nat.add_le_add_right (le_max_left _ _) 1))
              (le_trans (le_max_right _ _) (Nat.le_add_right _ 1))
          omega
        · rw [getHeight_node]
          have hmgl : max (getHeight l) (getHeight r) = getHeight l :=
            max_eq_left (by omega)
          rw [hmgl] at hh
          omega
        · rw [heqr, getHeight_node, getHeight_node]
          intro hg
          right
          by_cases hcase : getHeight (insertAVL l key rcd) ≤ getHeight r
          · rw [max_eq_right hcase] at hg
            have e2 : max (getHeight l) (getHeight r) ≤
                max (getHeight (insertAVL l key rcd)) (getHeight r) :=
              max_le_max hlo (le_refl _)
            rw [max_eq_right hcase] at e2
            exact absurd hg (by omega)
          · have hgr : getHeight r ≤ getHeight (insertAVL l key rcd) := by
              omega
            rw [max_eq_left hgr] at hg
            have hglr : getHeight (insertAVL l key rcd) = getHeight r + 1 := by
              omega
            exact Or.inl ⟨hlt, hglr⟩
        · rw [getHeight_node]
          intro hg
          have hmgl : max (getHeight l) (getHeight r) = getHeight l :=
            max_eq_left (by omega)
          rw [hmgl] at hh
          exact absurd hg (by omega)
      · subst heq
        rw [hdef, if_neg (lt_irrefl key), if_neg (lt_irrefl key)]
        exact ⟨hinv, le_refl _, by omega, fun hg => absurd hg (by omega)⟩
      · rw [hdef, if_neg (not_lt_of_gt hgt), if_pos hgt]
        obtain ⟨hIr', hlo, hhi, hgrow⟩ := ihr hIr
        have hub : getHeight (insertAVL r key rcd) ≤ getHeight l + 2 := by
          omega
        have hlb2 : getHeight l ≤ getHeight (insertAVL r key rcd) + 1 := by
          omega
        have hsh : getHeight (insertAVL r key rcd) = getHeight l + 2 →
            TiltedToward key (insertAVL r key rcd) := by
          intro h2
          rcases hgrow (by omega) with hnil | htl
          · rw [hnil] at h2
            exact absurd (show (1 : Nat) = getHeight l + 2 from h2) (by omega)
          · exact htl
        obtain ⟨hInv, hB⟩ := insertRebalance_right_spec key k krcd l
          (insertAVL r key rcd) hIl hIr' hub hlb2 hsh
        refine ⟨hInv, ?_, ?_, ?_⟩ <;>
          rcases hB with ⟨hble, heqr⟩ | ⟨hr2, hh2⟩
        · rw [heqr, getHeight_node, getHeight_node]
          have e2 : max (getHeight l) (getHeight r) ≤
              max (getHeight l) (getHeight (insertAVL r key rcd)) :=
            max_le_max (le_refl _) hlo
          omega
        · rw [getHeight_node]
          have hmgr : max (getHeight l) (getHeight r) = getHeight r :=
            max_eq_right (by omega)
          rw [hmgr] at hh
          omega
        · rw [heqr, getHeight_node, getHeight_node]
          have e1 : max (getHeight l) (getHeight (insertAVL r key rcd)) ≤
              max (getHeight l) (getHeight r) + 1 :=
            max_le (le_trans (le_max_left _ _) (Nat.le_add_right _ 1))
              (le_trans hhi (Nat.add_le_add_right (le_max_right _ _) 1))
          omega
        · rw [getHeight_node]
          have hmgr : max (getHeight l) (getHeight r) = getHeight r :=
            max_eq_right (by omega)
          rw [hmgr] at hh
          omega
        · rw [heqr, getHeight_node, getHeight_node]
          intro hg
          right
          by_cases hcase : getHeight (insertAVL r key rcd) ≤ getHeight l
          · rw [max_eq_left hcase] at hg
            have e2 : max (getHeight l) (getHeight r) ≤
                max (getHeight l) (getHeight (insertAVL r key rcd)) :=
              max_le_max (le_refl _) hlo
            rw [max_eq_left hcase] at e2
            exact absurd hg (by omega)
          · have hgr : getHeight l ≤ getHeight (insertAVL r key rcd) := by
              omega
            rw [max_eq_right hgr] at hg
            have hglr : getHeight (insertAVL r key rcd) = getHeight l + 1 := by
              omega
            exact Or.inr ⟨hgt, hglr⟩
        · rw [getHeight_node]
          intro hg
          have hmgr : max (getHeight l) (getHeight r) = getHeight r :=
            max_eq_right (by omega)
          rw [hmgr] at hh
          exact absurd hg (by omega)

theorem foldl_insert_good {α : Type} [LinearOrder α] :
    ∀ (ops : List (α × Nat)) (t : AVLTree α), AVLInv t → BSTOrdered t →
      AVLInv (ops.foldl (fun s p => insertAVL s p.1 p.2) t) ∧
      BSTOrdered (ops.foldl (fun s p => insertAVL s p.1 p.2) t) := by
  intro ops
  induction ops with
  | nil => exact fun t h1 h2 => ⟨h1, h2⟩
  | cons p rest ih =>
      intro t h1 h2
      exact ih _ (insertAVL_spec p.1 p.2 t h1).1 (bst_insertAVL p.1 p.2 t h2)

theorem buildAVLInt_eq_foldl (ops : List (Int × Nat)) :
    buildAVLInt ops = ops.foldl (fun s p => insertAVL s p.1 p.2) .nil := rfl

theorem buildAVLStr_eq_foldl (ops : List (String × Nat)) :
    buildAVLStr ops = ops.foldl (fun s p => insertAVL s p.1 p.2) .nil := rfl

theorem bstOrdered_nil {α : Type} [LinearOrder α] :
    BSTOrdered (AVLTree.nil : AVLTree α) := trivial

theorem buildAVLInt_good (ops : List (Int × Nat)) :
    AVLInv (buildAVLInt ops) ∧ BSTOrdered (buildAVLInt ops) := by
  rw [buildAVLInt_eq_foldl]
  exact foldl_insert_good ops .nil avlInv_nil bstOrdered_nil

theorem buildAVLStr_good (ops : List (String × Nat)) :
    AVLInv (buildAVLStr ops) ∧ BSTOrdered (buildAVLStr ops) := by
  rw [buildAVLStr_eq_foldl]
  exact foldl_insert_good ops .nil avlInv_nil bstOrdered_nil

theorem getHeight_eq_realHeight {α : Type} :
    ∀ t : AVLTree α, HeightOK t → getHeight t = realHeight t := by
  intro t
  induction t with
  | nil => intro _; rfl
  | node k rcd l r h ihl ihr =>
      rintro ⟨hh, hl, hr⟩
      show h = realHeight (.node k rcd l r h)
      rw [hh, ihl hl, ihr hr]
      rfl

theorem specAVL_of_inv {α : Type} : ∀ t : AVLTree α, AVLInv t → SpecAVL t := by
  intro t
  induction t with
  | nil => intro _; trivial
  | node k rcd l r h ihl ihr =>
      intro hinv
      obtain ⟨hh, hb1, hb2, hIl, hIr⟩ := avlInv_node_iff.mp hinv
      have hle : getHeight l = realHeight l := getHeight_eq_realHeight l hIl.1
      have hre : getHeight r = realHeight r := getHeight_eq_realHeight r hIr.1
      exact ⟨⟨hle ▸ hre ▸ hb1, hle ▸ hre ▸ hb2⟩, by rw [hh, hle, hre],
        ihl hIl, ihr hIr⟩

/-- C1: starting from the empty tree, any sequence of integer-key
insertions (`insertAVLInt`, as `buildAVLInt` folds them) and any sequence of
string-key insertions (`insertAVLStr`) produce trees satisfying the AVL
invariant: at every node the real left and right subtree heights differ by
at most 1 and the stored height field equals `1 + max(child heights)`, with
`height(nil) = 0`. -/
theorem avl_invariant_after_insertions (opsI : List (Int × Nat))
    (opsS : List (String × Nat)) :
    SpecAVL (buildAVLInt opsI) ∧ SpecAVL (buildAVLStr opsS) :=
  ⟨specAVL_of_inv _ (buildAVLInt_good opsI).1,
   specAVL_of_inv _ (buildAVLStr_good opsS).1⟩

theorem inorderKeys_node {α : Type} (k : α) (rcd : Nat) (l r : AVLTree α)
    (h : Nat) :
    inorderKeys (AVLTree.node k rcd l r h) =
      inorderKeys l ++ k :: inorderKeys r := by
  simp [inorderKeys, inorderPairs]

theorem insertAVL_mem_noop {α : Type} [LinearOrder α] (key : α) (rcd : Nat) :
    ∀ t : AVLTree α, AVLInv t → BSTOrdered t → key ∈ inorderKeys t →
      insertAVL t key rcd = t := by
  intro t
  induction t with
  | nil =>
      intro _ _ hmem
      simp [inorderKeys, inorderPairs] at hmem
  | node k krcd l r h ihl ihr =>
      intro hinv hbst hmem
      obtain ⟨hh, hb1, hb2, hIl, hIr⟩ := avlInv_node_iff.mp hinv
      obtain ⟨hlk, hrk, hbl, hbr⟩ := hbst
      have hdef : insertAVL (.node k krcd l r h) key rcd =
          if key < k then insertRebalance key k krcd (insertAVL l key rcd) r
          else if k < key then
            insertRebalance key k krcd l (insertAVL r key rcd)
          else .node k krcd l r h := rfl
      rw [inorderKeys_node] at hmem
      rcases List.mem_append.mp hmem with hml | hmr
      · have hklt : key < k := hlk key hml
        rw [hdef, if_pos hklt, ihl hIl hbl hml]
        have hc1 : ¬(1 < (getHeight l : Int) - (getHeight r : Int)) := by
          omega
        have hc2 : ¬((getHeight l : Int) - (getHeight r : Int) < -1) := by
          omega
        unfold insertRebalance
        rw [if_neg hc1, if_neg hc2, ← hh]
      · rcases List.mem_cons.mp hmr with hk | hmr'
        · rw [hdef, hk, if_neg (lt_irrefl k), if_neg (lt_irrefl k)]
        · have hkgt : k < key := hrk key hmr'
          rw [hdef, if_neg (not_lt_of_gt hkgt), if_pos hkgt,
            ihr hIr hbr hmr']
          have hc1 : ¬(1 < (getHeight l : Int) - (getHeight r : Int)) := by
            omega
          have hc2 : ¬((getHeight l : Int) - (getHeight r : Int) < -1) := by
            omega
          unfold insertRebalance
          rw [if_neg hc1, if_neg hc2, ← hh]

/-- C2: a tree built by any insertion sequence (integer or string keys) is a
strict BST — every left-subtree key is less than the node key, every
right-subtree key greater; inserting an already-present key returns the tree
unchanged; and the in-order key sequence is strictly ascending, hence
duplicate-free. -/
theorem avl_bst_noop_sorted (opsI : List (Int × Nat))
    (opsS : List (String × Nat)) :
    (BSTOrdered (buildAVLInt opsI) ∧
      (∀ key rcd, key ∈ inorderKeys (buildAVLInt opsI) →
        insertAVLInt (buildAVLInt opsI) key rcd = buildAVLInt opsI) ∧
      List.Pairwise (· < ·) (inorderKeys (buildAVLInt opsI)) ∧
      (inorderKeys (buildAVLInt opsI)).Nodup) ∧
    (BSTOrdered (buildAVLStr opsS) ∧
      (∀ key rcd, key ∈ inorderKeys (buildAVLStr opsS) →
        insertAVLStr (buildAVLStr opsS) key rcd = buildAVLStr opsS) ∧
      List.Pairwise (· < ·) (inorderKeys (buildAVLStr opsS)) ∧
      (inorderKeys (buildAVLStr opsS)).Nodup) := by
  obtain ⟨hIi, hBi⟩ := buildAVLInt_good opsI
  obtain ⟨hIs, hBs⟩ := buildAVLStr_good opsS
  have hsortI : List.Pairwise (· < ·) (inorderKeys (buildAVLInt opsI)) := by
    have := sorted_of_bst _ hBi
    unfold SortedPairs at this
    exact (List.pairwise_map.mpr (this.imp fun hab => hab))
  have hsortS : List.Pairwise (· < ·) (inorderKeys (buildAVLStr opsS)) := by
    have := sorted_of_bst _ hBs
    unfold SortedPairs at this
    exact (List.pairwise_map.mpr (this.imp fun hab => hab))
  exact ⟨⟨hBi, fun key rcd hm => insertAVL_mem_noop key rcd _ hIi hBi hm,
      hsortI, hsortI.imp ne_of_lt⟩,
    ⟨hBs, fun key rcd hm => insertAVL_mem_noop key rcd _ hIs hBs hm,
      hsortS, hsortS.imp ne_of_lt⟩⟩

theorem avl_bst_noop_sorted_witness :
    insertAVLInt (buildAVLInt [(3, 1), (1, 2), (5, 3)]) 3 9 =
      buildAVLInt [(3, 1), (1, 2), (5, 3)] :=
  (avl_bst_noop_sorted [(3, 1), (1, 2), (5, 3)] []).1.2.1 3 9 (by decide)

/-! ## Linear vs index-assisted range search -/

theorem avlFindGEHelper_eq_filter (v : Int) :
    ∀ t : AVLTree Int, BSTOrdered t →
      avlFindGEHelper t v =
        ((inorderPairs t).filter (fun e => v ≤ e.1)).map
          (fun e => ((e.2, 0) : SearchEntry)) := by
  intro t
  induction t with
  | nil => intro _; rfl
  | node k rcd l r h ihl ihr =>
      intro hbst
      obtain ⟨hlk, hrk, hbl, hbr⟩ := hbst
      have hstep : avlFindGEHelper (.node k rcd l r h) v =
          if v ≤ k then
            avlFindGEHelper l v ++ (rcd, 0) :: avlFindGEHelper r v
          else avlFindGEHelper r v := rfl
      show _ = ((inorderPairs l ++ (k, rcd) :: inorderPairs r).filter
        (fun e => v ≤ e.1)).map (fun e => ((e.2, 0) : SearchEntry))
      by_cases hk : v ≤ k
      · rw [hstep, if_pos hk, ihl hbl, ihr hbr, List.filter_append,
          List.filter_cons]
        simp only [decide_eq_true_eq, if_pos hk, List.map_append,
          List.map_cons]
      · rw [hstep, if_neg hk, List.filter_append, List.filter_cons]
        have hfl : (inorderPairs l).filter (fun e => v ≤ e.1) = [] := by
          rw [List.filter_eq_nil_iff]
          intro e he
          simp only [decide_eq_true_eq]
          have := hlk e.1 (List.mem_map_of_mem Prod.fst he)
          omega
        rw [hfl, ihr hbr]
        simp only [decide_eq_true_eq, if_neg hk, List.nil_append]

theorem avlFindLEHelper_eq_filter (v : Int) :
    ∀ t : AVLTree Int, BSTOrdered t →
      avlFindLEHelper t v =
        ((inorderPairs t).filter (fun e => e.1 ≤ v)).map
          (fun e => ((e.2, 0) : SearchEntry)) := by
  intro t
  induction t with
  | nil => intro _; rfl
  | node k rcd l r h ihl ihr =>
      intro hbst
      obtain ⟨hlk, hrk, hbl, hbr⟩ := hbst
      have hstep : avlFindLEHelper (.node k rcd l r h) v =
          if k ≤ v then
            avlFindLEHelper l v ++ (rcd, 0) :: avlFindLEHelper r v
          else avlFindLEHelper l v := rfl
      show _ = ((inorderPairs l ++ (k, rcd) :: inorderPairs r).filter
        (fun e => e.1 ≤ v)).map (fun e => ((e.2, 0) : SearchEntry))
      by_cases hk : k ≤ v
      · rw [hstep, if_pos hk, ihl hbl, ihr hbr, List.filter_append,
          List.filter_cons]
        simp only [decide_eq_true_eq, if_pos hk, List.map_append,
          List.map_cons]
      · rw [hstep, if_neg hk, List.filter_append, List.filter_cons]
        have hfr : (inorderPairs r).filter (fun e => e.1 ≤ v) = [] := by
          rw [List.filter_eq_nil_iff]
          intro e he
          simp only [decide_eq_true_eq]
          have := hrk e.1 (List.mem_map_of_mem Prod.fst he)
          omega
        rw [hfr, ihl hbl]
        simp only [decide_eq_true_eq, if_neg hk, List.append_nil]

theorem scanGE_eq_filter (j : Nat) (v : Int) :
    ∀ (rows : List (List Cell)) (p : Nat),
      (∀ row ∈ rows, (cellAt row j).ctype = 1) →
      scanGE j v rows p =
        ((collectItems j rows p).filter (fun e => v ≤ e.1)).map
          (fun e => ((e.2, e.2) : SearchEntry)) := by
  intro rows
  induction rows with
  | nil => intro p _; rfl
  | cons row rest ih =>
      intro p hint
      have hrow : (cellAt row j).ctype = 1 :=
        hint row (List.mem_cons_self _ _)
      have hstep : scanGE j v (row :: rest) p =
          if (cellAt row j).ctype = 1 ∧ v ≤ (cellAt row j).int_val then
            (p, p) :: scanGE j v rest (p + 1)
          else scanGE j v rest (p + 1) := rfl
      have hcoll : collectItems j (row :: rest) p =
          ((cellAt row j).int_val, p) :: collectItems j rest (p + 1) := rfl
      rw [hcoll, List.filter_cons]
      by_cases hv : v ≤ (cellAt row j).int_val
      · rw [hstep, if_pos ⟨hrow, hv⟩,
          ih (p + 1) fun rr hr => hint rr (List.mem_cons_of_mem _ hr)]
        simp only [decide_eq_true_eq, if_pos hv, List.map_cons]
      · rw [hstep, if_neg (by intro hc; exact hv hc.2),
          ih (p + 1) fun rr hr => hint rr (List.mem_cons_of_mem _ hr)]
        simp only [decide_eq_true_eq, if_neg hv]

theorem scanLE_eq_filter (j : Nat) (v : Int) :
    ∀ (rows : List (List Cell)) (p : Nat),
      (∀ row ∈ rows, (cellAt row j).ctype = 1) →
      scanLE j v rows p =
        ((collectItems j rows p).filter (fun e => e.1 ≤ v)).map
          (fun e => ((e.2, e.2) : SearchEntry)) := by
  intro rows
  induction rows with
  | nil => intro p _; rfl
  | cons row rest ih =>
      intro p hint
      have hrow : (cellAt row j).ctype = 1 :=
        hint row (List.mem_cons_self _ _)
      have hstep : scanLE j v (row :: rest) p =
          if (cellAt row j).ctype = 1 ∧ (cellAt row j).int_val ≤ v then
            (p, p) :: scanLE j v rest (p + 1)
          else scanLE j v rest (p + 1) := rfl
      have hcoll : collectItems j (row :: rest) p =
          ((cellAt row j).int_val, p) :: collectItems j rest (p + 1) := rfl
      rw [hcoll, List.filter_cons]
      by_cases hv : (cellAt row j).int_val ≤ v
      · rw [hstep, if_pos ⟨hrow, hv⟩,
          ih (p + 1) fun rr hr => hint rr (List.mem_cons_of_mem _ hr)]
        simp only [decide_eq_true_eq, if_pos hv, List.map_cons]
      · rw [hstep, if_neg (by intro hc; exact hv hc.2),
          ih (p + 1) fun rr hr => hint rr (List.mem_cons_of_mem _ hr)]
        simp only [decide_eq_true_eq, if_neg hv]

theorem inorder_foldl_insert {α : Type} [LinearOrder α] :
    ∀ (ops : List (α × Nat)) (t : AVLTree α), AVLInv t → BSTOrdered t →
      inorderPairs (ops.foldl (fun s p => insertAVL s p.1 p.2) t) =
        ops.foldl (fun acc p => linsert p.1 p.2 acc) (inorderPairs t) := by
  intro ops
  induction ops with
  | nil => intro t _ _; rfl
  | cons p rest ih =>
      intro t hI hB
      show inorderPairs (rest.foldl _ (insertAVL t p.1 p.2)) =
        rest.foldl _ (linsert p.1 p.2 (inorderPairs t))
      rw [ih (insertAVL t p.1 p.2) (insertAVL_spec p.1 p.2 t hI).1
        (bst_insertAVL p.1 p.2 t hB), inorder_insertAVL p.1 p.2 t hB]

theorem inorder_buildAVLInt (ops : List (Int × Nat)) :
    inorderPairs (buildAVLInt ops) = slist ops :=
  inorder_foldl_insert ops .nil avlInv_nil bstOrdered_nil

theorem buildAVLIndexInt_eq (t : Table) (j : Nat) :
    buildAVLIndexInt t j = buildAVLInt (collectItems j t.rows 1) := by
  show buildIndexIntAux j t.rows 1 .nil = _
  rw [buildAVLInt_eq_foldl]
  generalize AVLTree.nil = root
  generalize 1 = pos
  induction t.rows generalizing pos root with
  | nil => rfl
  | cons row rest ih =>
      show buildIndexIntAux j rest (pos + 1)
        (insertAVLInt root (cellAt row j).int_val pos) = _
      rw [ih]
      rfl

theorem slist_sorted {α : Type} [LinearOrder α] :
    ∀ (ops : List (α × Nat)) (acc : List (α × Nat)), SortedPairs acc →
      SortedPairs (ops.foldl (fun a p => linsert p.1 p.2 a) acc) := by
  intro ops
  induction ops with
  | nil => exact fun acc h => h
  | cons p rest ih =>
      intro acc hacc
      exact ih _ (sortedPairs_linsert p.1 p.2 acc hacc)

theorem mem_foldl_linsert {α : Type} [LinearOrder α] :
    ∀ (ops : List (α × Nat)) (acc : List (α × Nat)) (e : α × Nat),
      e ∈ ops.foldl (fun a p => linsert p.1 p.2 a) acc →
      e ∈ acc ∨ e ∈ ops := by
  intro ops
  induction ops with
  | nil => exact fun acc e he => Or.inl he
  | cons p rest ih =>
      intro acc e he
      rcases ih _ e he with h | h
      · rcases mem_linsert p.1 p.2 acc e h with h' | h'
        · exact Or.inr (List.mem_cons.mpr (Or.inl (by rw [h'])))
        · exact Or.inl h'
      · exact Or.inr (List.mem_cons_of_mem _ h)

theorem linsert_perm_of_not_mem {α : Type} [LinearOrder α] (key : α)
    (rcd : Nat) :
    ∀ xs : List (α × Nat), key ∉ xs.map Prod.fst →
      (linsert key rcd xs).Perm (xs ++ [(key, rcd)]) := by
  intro xs
  induction xs with
  | nil => intro _; exact List.Perm.refl _
  | cons a xs ih =>
      obtain ⟨ak, ar⟩ := a
      intro hnm
      have hkak : key ≠ ak := by
        intro hc
        exact hnm (by rw [hc]; exact List.mem_cons_self _ _)
      rw [linsert_cons_step]
      by_cases h1 : key < ak
      · rw [if_pos h1]
        exact ((List.perm_append_singleton (key, rcd)
          ((ak, ar) :: xs)).symm)
      · rw [if_neg h1, if_pos (by
          rcases lt_trichotomy ak key with h | h | h
          · exact h
          · exact absurd h.symm hkak
          · exact absurd h h1)]
        exact List.Perm.cons (ak, ar)
          (ih fun hc => hnm (List.mem_cons_of_mem _ hc))

theorem foldl_linsert_perm {α : Type} [LinearOrder α] :
    ∀ (ops : List (α × Nat)) (acc : List (α × Nat)),
      (acc.map Prod.fst ++ ops.map Prod.fst).Nodup →
      (ops.foldl (fun a p => linsert p.1 p.2 a) acc).Perm (acc ++ ops) := by
  intro ops
  induction ops with
  | nil =>
      intro acc _
      simp
  | cons p rest ih =>
      intro acc hnd
      obtain ⟨pk, pr⟩ := p
      have hmemacc : pk ∉ acc.map Prod.fst := by
        rcases List.nodup_append.mp hnd with ⟨_, _, hdisj⟩
        intro hc
        exact hdisj hc (by simp)
      have hperm1 : (linsert pk pr acc).Perm (acc ++ [(pk, pr)]) :=
        linsert_perm_of_not_mem pk pr acc hmemacc
      have hnd' : ((linsert pk pr acc).map Prod.fst ++
          rest.map Prod.fst).Nodup := by
        refine ((hperm1.map Prod.fst).append_right
          (rest.map Prod.fst)).symm.nodup ?_
        have : (acc.map Prod.fst ++ [pk]) ++ rest.map Prod.fst =
            acc.map Prod.fst ++ (pk :: rest.map Prod.fst) := by
          simp
        rw [List.map_append]
        show ((acc.map Prod.fst ++ [pk]) ++ rest.map Prod.fst).Nodup
        rw [this]
        simpa using hnd
      have hstep := ih (linsert pk pr acc) hnd'
      refine hstep.trans ?_
      refine (hperm1.append_right rest).trans ?_
      have : (acc ++ [(pk, pr)]) ++ rest = acc ++ (pk, pr) :: rest := by
        simp
      rw [this]

theorem slist_perm {α : Type} [LinearOrder α] (ops : List (α × Nat))
    (hnd : (ops.map Prod.fst).Nodup) : (slist ops).Perm ops := by
  have := foldl_linsert_perm ops [] (by simpa using hnd)
  simpa [slist] using this

theorem slist_nodup {α : Type} [LinearOrder α] (ops : List (α × Nat)) :
    (slist ops).Nodup :=
  (slist_sorted ops [] List.Pairwise.nil).imp
    fun hab => ne_of_apply_ne Prod.fst (ne_of_lt hab)

theorem slist_subperm {α : Type} [LinearOrder α] (ops : List (α × Nat)) :
    (slist ops).Subperm ops :=
  List.subperm_of_subset (slist_nodup ops)
    (fun e he => by
      rcases mem_foldl_linsert ops [] e he with h | h
      · simp at h
      · exact h)

theorem collectItems_map_fst (j : Nat) :
    ∀ (rows : List (List Cell)) (p : Nat),
      (collectItems j rows p).map Prod.fst =
        rows.map (fun row => (cellAt row j).int_val) := by
  intro rows
  induction rows with
  | nil => intro p; rfl
  | cons row rest ih =>
      intro p
      show (cellAt row j).int_val ::
          (collectItems j rest (p + 1)).map Prod.fst = _
      rw [ih (p + 1)]
      rfl

theorem toFinset_eq_of_perm (l1 l2 : List Nat) (h : l1.Perm l2) :
    l1.toFinset = l2.toFinset := by
  ext x
  simp [List.mem_toFinset, h.mem_iff]

/-- C3: over an Integer column of a well-formed table, if the column values
are pairwise distinct then the index-assisted GE/LE searches (over
`buildAVLIndexInt`) return exactly the same set of rows as the linear scans;
and without any distinctness assumption the index result count never exceeds
the linear result count (duplicate keys are dropped by the index). -/
theorem search_refinement (t : Table) (j : Nat) (v : Int) (hwf : WFTable t)
    (hj : j < t.columns.length) (hty : (colAt t.columns j).ctype = 1) :
    ((t.rows.map fun row => (cellAt row j).int_val).Nodup →
      ((avlFindGE (buildAVLIndexInt t j) v).map Prod.fst).toFinset =
        ((linearFindGE t j v).map Prod.fst).toFinset ∧
      ((avlFindLE (buildAVLIndexInt t j) v).map Prod.fst).toFinset =
        ((linearFindLE t j v).map Prod.fst).toFinset) ∧
    ((avlFindGE (buildAVLIndexInt t j) v).length ≤
        (linearFindGE t j v).length ∧
      (avlFindLE (buildAVLIndexInt t j) v).length ≤
        (linearFindLE t j v).length) := by
  have hint : ∀ row ∈ t.rows, (cellAt row j).ctype = 1 := by
    intro row hr
    rw [(hwf.2 row hr).2 j hj, hty]
  have hB : BSTOrdered (buildAVLIndexInt t j) := by
    rw [buildAVLIndexInt_eq]
    exact (buildAVLInt_good _).2
  have hio : inorderPairs (buildAVLIndexInt t j) =
      slist (collectItems j t.rows 1) := by
    rw [buildAVLIndexInt_eq, inorder_buildAVLInt]
  have hge : (avlFindGE (buildAVLIndexInt t j) v).map Prod.fst =
      ((slist (collectItems j t.rows 1)).filter
        (fun e => v ≤ e.1)).map (fun e => e.2) := by
    show (avlFindGEHelper (buildAVLIndexInt t j) v).map Prod.fst = _
    rw [avlFindGEHelper_eq_filter v _ hB, hio, List.map_map]
    rfl
  have hle : (avlFindLE (buildAVLIndexInt t j) v).map Prod.fst =
      ((slist (collectItems j t.rows 1)).filter
        (fun e => e.1 ≤ v)).map (fun e => e.2) := by
    show (avlFindLEHelper (buildAVLIndexInt t j) v).map Prod.fst = _
    rw [avlFindLEHelper_eq_filter v _ hB, hio, List.map_map]
    rfl
  have hlge : (linearFindGE t j v).map Prod.fst =
      ((collectItems j t.rows 1).filter
        (fun e => v ≤ e.1)).map (fun e => e.2) := by
    show (scanGE j v t.rows 1).map Prod.fst = _
    rw [scanGE_eq_filter j v t.rows 1 hint, List.map_map]
    rfl
  have hlle : (linearFindLE t j v).map Prod.fst =
      ((collectItems j t.rows 1).filter
        (fun e => e.1 ≤ v)).map (fun e => e.2) := by
    show (scanLE j v t.rows 1).map Prod.fst = _
    rw [scanLE_eq_filter j v t.rows 1 hint, List.map_map]
    rfl
  constructor
  · intro hnd
    have hnd' : ((collectItems j t.rows 1).map Prod.fst).Nodup := by
      rw [collectItems_map_fst]
      exact hnd
    have hperm := slist_perm (collectItems j t.rows 1) hnd'
    constructor
    · rw [hge, hlge]
      exact toFinset_eq_of_perm _ _
        ((hperm.filter (fun e => decide (v ≤ e.1))).map (fun e => e.2))
    · rw [hle, hlle]
      exact toFinset_eq_of_perm _ _
        ((hperm.filter (fun e => decide (e.1 ≤ v))).map (fun e => e.2))
  · have hsub := slist_subperm (collectItems j t.rows 1)
    constructor
    · have h1 : (avlFindGE (buildAVLIndexInt t j) v).length =
          ((slist (collectItems j t.rows 1)).filter
            (fun e => v ≤ e.1)).length := by
        have := congrArg List.length hge
        simpa using this
      have h2 : (linearFindGE t j v).length =
          (((collectItems j t.rows 1)).filter
            (fun e => v ≤ e.1)).length := by
        have := congrArg List.length hlge
        simpa using this
      rw [h1, h2]
      exact (hsub.filter (fun e => decide (v ≤ e.1))).length_le
    · have h1 : (avlFindLE (buildAVLIndexInt t j) v).length =
          ((slist (collectItems j t.rows 1)).filter
            (fun e => e.1 ≤ v)).length := by
        have := congrArg List.length hle
        simpa using this
      have h2 : (linearFindLE t j v).length =
          (((collectItems j t.rows 1)).filter
            (fun e => e.1 ≤ v)).length := by
        have := congrArg List.length hlle
        simpa using this
      rw [h1, h2]
      exact (hsub.filter (fun e => decide (e.1 ≤ v))).length_le

theorem search_refinement_witness :
    ((([[Cell.intCell 3], [Cell.intCell 1], [Cell.intCell 2]] :
        List (List Cell)).map fun row => (cellAt row 0).int_val).Nodup →
      ((avlFindGE (buildAVLIndexInt
          ⟨[⟨"id", 1⟩], [[Cell.intCell 3], [Cell.intCell 1], [Cell.intCell 2]]⟩
          0) 2).map Prod.fst).toFinset =
        ((linearFindGE
          ⟨[⟨"id", 1⟩], [[Cell.intCell 3], [Cell.intCell 1], [Cell.intCell 2]]⟩
          0 2).map Prod.fst).toFinset ∧
      ((avlFindLE (buildAVLIndexInt
          ⟨[⟨"id", 1⟩], [[Cell.intCell 3], [Cell.intCell 1], [Cell.intCell 2]]⟩
          0) 2).map Prod.fst).toFinset =
        ((linearFindLE
          ⟨[⟨"id", 1⟩], [[Cell.intCell 3], [Cell.intCell 1], [Cell.intCell 2]]⟩
          0 2).map Prod.fst).toFinset) ∧
    ((avlFindGE (buildAVLIndexInt
        ⟨[⟨"id", 1⟩], [[Cell.intCell 3], [Cell.intCell 1], [Cell.intCell 2]]⟩
        0) 2).length ≤
      (linearFindGE
        ⟨[⟨"id", 1⟩], [[Cell.intCell 3], [Cell.intCell 1], [Cell.intCell 2]]⟩
        0 2).length ∧
     (avlFindLE (buildAVLIndexInt
        ⟨[⟨"id", 1⟩], [[Cell.intCell 3], [Cell.intCell 1], [Cell.intCell 2]]⟩
        0) 2).length ≤
      (linearFindLE
        ⟨[⟨"id", 1⟩], [[Cell.intCell 3], [Cell.intCell 1], [Cell.intCell 2]]⟩
        0 2).length) :=
  search_refinement
    ⟨[⟨"id", 1⟩], [[Cell.intCell 3], [Cell.intCell 1], [Cell.intCell 2]]⟩
    0 2 (by decide) (by decide) (by decide)

/-! ## JSON round trip -/

theorem cell_eq_intCell {cell : Cell} (h : cell.ctype = 1) :
    Cell.intCell cell.int_val = cell := by
  cases cell with
  | intCell v => rfl
  | strCell s => exact absurd h (by simp [Cell.ctype])

theorem cell_eq_strCell {cell : Cell} (h : cell.ctype = 2) :
    Cell.strCell cell.str_val = cell := by
  cases cell with
  | intCell v => exact absurd h (by simp [Cell.ctype])
  | strCell s => rfl

theorem jGetObj_obj_head (nm : String) (v : Json)
    (fields : List (String × Json)) :
    jGetObj (Json.obj ((nm, v) :: fields)) nm = some v := by
  show (((nm, v) :: fields).find? (fun g => g.1 = nm)).map Prod.snd = some v
  rw [List.find?_cons_of_pos _ (by simp)]
  rfl

theorem jGetObj_obj_cons (f : String × Json) (fields : List (String × Json))
    (key : String) (hne : ¬(f.1 = key)) :
    jGetObj (Json.obj (f :: fields)) key = jGetObj (Json.obj fields) key := by
  show ((f :: fields).find? (fun g => g.1 = key)).map Prod.snd = _
  rw [List.find?_cons_of_neg _ (by simpa using hne)]
  rfl

theorem readColumns_saved :
    ∀ (cs : List Column) (pre : List Json),
      readColumns (some (Json.arr (pre ++ cs.map savedColumnJson)))
        pre.length cs.length = some cs := by
  intro cs
  induction cs with
  | nil => intro pre; rfl
  | cons c cs ih =>
      intro pre
      have hitem : jArrItem
          (some (Json.arr (pre ++ (c :: cs).map savedColumnJson)))
          pre.length = some (savedColumnJson c) := by
        show (pre ++ savedColumnJson c :: cs.map savedColumnJson).get?
          pre.length = _
        rw [List.get?_eq_getElem?,
          List.getElem?_append_right (le_refl pre.length)]
        simp
      have hcol : readColumn
          (some (Json.arr (pre ++ (c :: cs).map savedColumnJson)))
          pre.length = some c := by
        unfold readColumn
        rw [hitem]
        rfl
      have hstep : readColumns
          (some (Json.arr (pre ++ (c :: cs).map savedColumnJson)))
          pre.length (c :: cs).length =
          match readColumn
              (some (Json.arr (pre ++ (c :: cs).map savedColumnJson)))
              pre.length with
          | none => none
          | some c0 =>
              (readColumns
                (some (Json.arr (pre ++ (c :: cs).map savedColumnJson)))
                (pre.length + 1) cs.length).map (c0 :: ·) := rfl
      rw [hstep, hcol]
      show (readColumns
          (some (Json.arr (pre ++ (c :: cs).map savedColumnJson)))
          (pre.length + 1) cs.length).map (c :: ·) = some (c :: cs)
      have hlist : pre ++ (c :: cs).map savedColumnJson =
          (pre ++ [savedColumnJson c]) ++ cs.map savedColumnJson := by
        simp
      have hlen : pre.length + 1 = (pre ++ [savedColumnJson c]).length := by
        simp
      rw [hlist, hlen, ih (pre ++ [savedColumnJson c])]
      rfl

theorem lookup_recordFields :
    ∀ (cols : List Column) (row : List Cell) (record : Json),
      (cols.map Column.name).Nodup →
      (∀ nm ∈ cols.map Column.name,
        jGetObj record nm = jGetObj (Json.obj (recordFields cols row)) nm) →
      List.Forall₂ (fun (c : Column) (cell : Cell) =>
        cell.ctype = c.ctype ∧ (c.ctype = 1 ∨ c.ctype = 2)) cols row →
      List.Forall₂ (fun (c : Column) (cell : Cell) =>
        jGetObj record c.name =
          some (if c.ctype = 1 then Json.num cell.int_val
                else Json.str cell.str_val) ∧
        cell.ctype = c.ctype ∧ (c.ctype = 1 ∨ c.ctype = 2)) cols row := by
  intro cols
  induction cols with
  | nil =>
      intro row record _ _ hf
      cases hf
      exact List.Forall₂.nil
  | cons c cs ih =>
      intro row record hnd hagree hf
      cases hf with
      | cons hhead htail =>
          rename_i cell cells
          refine List.Forall₂.cons ⟨?_, hhead⟩ ?_
          · rw [hagree c.name (by simp)]
            show jGetObj (Json.obj ((c.name,
              if c.ctype = 1 then Json.num cell.int_val
              else Json.str cell.str_val) :: recordFields cs cells))
              c.name = _
            exact jGetObj_obj_head _ _ _
          · have hndtail : (cs.map Column.name).Nodup :=
              (List.nodup_cons.mp (by simpa using hnd)).2
            have hnotmem : c.name ∉ cs.map Column.name :=
              (List.nodup_cons.mp (by simpa using hnd)).1
            refine ih cells record hndtail ?_ htail
            intro nm hnm
            rw [hagree nm (List.mem_cons_of_mem _ hnm)]
            show jGetObj (Json.obj ((c.name,
              if c.ctype = 1 then Json.num cell.int_val
              else Json.str cell.str_val) :: recordFields cs cells)) nm = _
            refine jGetObj_obj_cons _ _ _ ?_
            intro hc
            have hc' : c.name = nm := hc
            exact hnotmem (hc' ▸ hnm)

theorem readCells_of_lookup :
    ∀ (cols : List Column) (row : List Cell) (record : Json),
      List.Forall₂ (fun (c : Column) (cell : Cell) =>
        jGetObj record c.name =
          some (if c.ctype = 1 then Json.num cell.int_val
                else Json.str cell.str_val) ∧
        cell.ctype = c.ctype ∧ (c.ctype = 1 ∨ c.ctype = 2)) cols row →
      readCells record cols = some row := by
  intro cols
  induction cols with
  | nil =>
      intro row record hf
      cases hf
      rfl
  | cons c cs ih =>
      intro row record hf
      cases hf with
      | cons hhead htail =>
          rename_i cell cells
          obtain ⟨hlook, hty, hrange⟩ := hhead
          have hcell : readCell record c = some cell := by
            unfold readCell
            rcases hrange with h1 | h2
            · rw [if_pos h1, hlook, if_pos h1]
              show some (Cell.intCell cell.int_val) = some cell
              rw [cell_eq_intCell (by omega)]
            · have hne1 : ¬(c.ctype = 1) := by omega
              rw [if_neg hne1, hlook, if_neg hne1]
              show some (Cell.strCell cell.str_val) = some cell
              rw [cell_eq_strCell (by omega)]
          have hstep : readCells record (c :: cs) =
              match readCell record c with
              | none => none
              | some cell0 => (readCells record cs).map (cell0 :: ·) := rfl
          rw [hstep, hcell]
          show (readCells record cs).map (cell :: ·) = some (cell :: cells)
          rw [ih cells record htail]
          rfl

theorem loadRecordsLoop_saved (cols : List Column) :
    ∀ (rows2 : List (List Cell)) (pre : List Json) (acc : List (List Cell)),
      (∀ row ∈ rows2,
        readCells (savedRecordJson cols row) cols = some row ∧
        typesMatch cols row) →
      loadRecordsLoop
        (some (Json.arr (pre ++ rows2.map (savedRecordJson cols))))
        rows2.length pre.length ⟨cols, acc⟩ = some ⟨cols, acc ++ rows2⟩ := by
  intro rows2
  induction rows2 with
  | nil =>
      intro pre acc _
      show some (Table.mk cols acc) = some (Table.mk cols (acc ++ []))
      rw [List.append_nil]
  | cons row rest ih =>
      intro pre acc hprops
      have hitem : jArrItem
          (some (Json.arr (pre ++ (row :: rest).map (savedRecordJson cols))))
          pre.length = some (savedRecordJson cols row) := by
        show (pre ++ savedRecordJson cols row ::
          rest.map (savedRecordJson cols)).get? pre.length = _
        rw [List.get?_eq_getElem?,
          List.getElem?_append_right (le_refl pre.length)]
        simp
      have hstep : loadRecordsLoop
          (some (Json.arr (pre ++ (row :: rest).map (savedRecordJson cols))))
          (row :: rest).length pre.length ⟨cols, acc⟩ =
          match jArrItem
              (some (Json.arr
                (pre ++ (row :: rest).map (savedRecordJson cols))))
              pre.length with
          | none => none
          | some record =>
              match readCells record cols with
              | none => none
              | some cells =>
                  loadRecordsLoop
                    (some (Json.arr
                      (pre ++ (row :: rest).map (savedRecordJson cols))))
                    rest.length (pre.length + 1)
                    (addRecord ⟨cols, acc⟩ cells).1 := rfl
      rw [hstep, hitem]
      show (match readCells (savedRecordJson cols row) cols with
          | none => none
          | some cells =>
              loadRecordsLoop
                (some (Json.arr
                  (pre ++ (row :: rest).map (savedRecordJson cols))))
                rest.length (pre.length + 1)
                (addRecord ⟨cols, acc⟩ cells).1) =
        some (Table.mk cols (acc ++ row :: rest))
      rw [(hprops row (List.mem_cons_self _ _)).1]
      show loadRecordsLoop
          (some (Json.arr (pre ++ (row :: rest).map (savedRecordJson cols))))
          rest.length (pre.length + 1) (addRecord ⟨cols, acc⟩ row).1 =
        some (Table.mk cols (acc ++ row :: rest))
      have haddr : (addRecord ⟨cols, acc⟩ row).1 =
          Table.mk cols (acc ++ [row]) := by
        unfold addRecord
        rw [if_pos (hprops row (List.mem_cons_self _ _)).2]
      rw [haddr]
      have hlist : pre ++ (row :: rest).map (savedRecordJson cols) =
          (pre ++ [savedRecordJson cols row]) ++
            rest.map (savedRecordJson cols) := by
        simp
      have hlen : pre.length + 1 =
          (pre ++ [savedRecordJson cols row]).length := by
        simp
      rw [hlist, hlen, ih (pre ++ [savedRecordJson cols row]) (acc ++ [row])
        (fun r hr => hprops r (List.mem_cons_of_mem _ hr))]
      simp

theorem wf_row_forall₂ (cols : List Column) (row : List Cell)
    (hty : ∀ c ∈ cols, c.ctype = 1 ∨ c.ctype = 2)
    (hlen : row.length = cols.length)
    (hpt : ∀ j < cols.length, (cellAt row j).ctype = (colAt cols j).ctype) :
    List.Forall₂ (fun (c : Column) (cell : Cell) =>
      cell.ctype = c.ctype ∧ (c.ctype = 1 ∨ c.ctype = 2)) cols row := by
  rw [List.forall₂_iff_get]
  refine ⟨hlen.symm, ?_⟩
  intro i h1 h2
  have hcell : cellAt row i = row.get ⟨i, h2⟩ := by
    show row.getD i (Cell.intCell 0) = _
    rw [List.getD_eq_getElem row _ h2]
    rfl
  have hcol : colAt cols i = cols.get ⟨i, h1⟩ := by
    show cols.getD i (⟨"", 0⟩ : Column) = _
    rw [List.getD_eq_getElem cols _ h1]
    rfl
  constructor
  · rw [← hcell, ← hcol]
    exact hpt i h1
  · rw [← hcol]
    exact hty (colAt cols i) (hcol ▸ List.get_mem cols i h1)

theorem loadTableFromJson_some_eq (root : Json) (n : Int)
    (hnum : jValueInt (jGetObj root "numColumns") = some n) :
    loadTableFromJson (some root) = loadColumnsStage root n := by
  show (match jValueInt (jGetObj root "numColumns") with
    | none => LoadResult.crash
    | some numColumns => loadColumnsStage root numColumns) =
    loadColumnsStage root n
  rw [hnum]

theorem loadColumnsStage_eq (root : Json) (n : Int) (cs : List Column)
    (hcols : readColumns (jGetObj root "columns") 0 n.toNat = some cs) :
    loadColumnsStage root n = loadRecordsStage root cs := by
  unfold loadColumnsStage
  rw [hcols]

theorem loadRecordsStage_eq (root : Json) (cs : List Column) (t : Table)
    (hl : loadRecordsLoop (jGetObj root "records")
      (jArrSize (jGetObj root "records")) 0 ⟨cs, []⟩ = some t) :
    loadRecordsStage root cs = .ok t := by
  unfold loadRecordsStage
  rw [hl]

/-- C4: for a well-formed table (cell kinds match the schema, declared types
are 1 or 2, and — as the record-object representation requires — column
names are distinct), exporting with `saveTableToJson` and importing the
result with `loadTableFromJson` reproduces exactly the original table:
same schema (names, order, types), same row count, same rows in the same
positional order. -/
theorem json_round_trip (t : Table) (hwf : WFTable t)
    (hnames : (t.columns.map Column.name).Nodup) :
    loadTableFromJson (some (saveTableToJson t)) = LoadResult.ok t := by
  obtain ⟨cols, rows⟩ := t
  obtain ⟨hcty, hrows⟩ := hwf
  have hnum : jValueInt (jGetObj (saveTableToJson ⟨cols, rows⟩)
      "numColumns") = some (cols.length : Int) := rfl
  have hcols0 : readColumns (jGetObj (saveTableToJson ⟨cols, rows⟩)
      "columns") 0 (Int.toNat (cols.length : Int)) = some cols := by
    show readColumns (some (Json.arr (cols.map savedColumnJson))) 0
      (Int.toNat (cols.length : Int)) = some cols
    rw [Int.toNat_ofNat]
    have := readColumns_saved cols []
    simpa using this
  have hprops : ∀ row ∈ rows,
      readCells (savedRecordJson cols row) cols = some row ∧
      typesMatch cols row := by
    intro row hr
    obtain ⟨hlen, hpt⟩ := hrows row hr
    have hf2 := wf_row_forall₂ cols row hcty hlen hpt
    have hlook := lookup_recordFields cols row
      (Json.obj (recordFields cols row)) hnames (fun nm _ => rfl) hf2
    exact ⟨readCells_of_lookup cols row _ hlook, hpt⟩
  have hloop : loadRecordsLoop
      (jGetObj (saveTableToJson ⟨cols, rows⟩) "records")
      (jArrSize (jGetObj (saveTableToJson ⟨cols, rows⟩) "records")) 0
      ⟨cols, []⟩ = some ⟨cols, rows⟩ := by
    show loadRecordsLoop (some (Json.arr (rows.map (savedRecordJson cols))))
      (jArrSize (some (Json.arr (rows.map (savedRecordJson cols))))) 0
      ⟨cols, []⟩ = _
    have hsz : jArrSize (some (Json.arr (rows.map (savedRecordJson cols)))) =
        rows.length := by
      simp [jArrSize]
    rw [hsz]
    have := loadRecordsLoop_saved cols rows [] [] hprops
    simpa using this
  rw [loadTableFromJson_some_eq _ _ hnum, loadColumnsStage_eq _ _ _ hcols0,
    loadRecordsStage_eq _ _ _ hloop]

theorem json_round_trip_witness :
    loadTableFromJson (some (saveTableToJson
      ⟨[⟨"id", 1⟩, ⟨"name", 2⟩],
       [[Cell.intCell 1, Cell.strCell "a"],
        [Cell.intCell 2, Cell.strCell "b"]]⟩)) =
    LoadResult.ok
      ⟨[⟨"id", 1⟩, ⟨"name", 2⟩],
       [[Cell.intCell 1, Cell.strCell "a"],
        [Cell.intCell 2, Cell.strCell "b"]]⟩ :=
  json_round_trip
    ⟨[⟨"id", 1⟩, ⟨"name", 2⟩],
     [[Cell.intCell 1, Cell.strCell "a"],
      [Cell.intCell 2, Cell.strCell "b"]]⟩
    (by decide) (by decide)
